import Mathlib

/-!
Verification development for the `pyeventsystem` dispatch engine
(`pyeventsystem/events.py`).

The Python source is shallowly embedded:

* pattern matching models `re.search(fnmatch.translate(pattern), event)`
  (`SimpleEventDispatcher._create_handler_cache`, `_invalidate_cache`);
* the dispatcher registry (`__events`), the resolution cache
  (`__handler_cache`) and the operations `subscribe`, `unsubscribe`,
  `get_handlers_for_event`, `_create_handler_cache`, `_invalidate_cache`,
  `dispatch` are modelled as pure state-passing functions over association
  lists (Python dicts are insertion ordered, which the association-list
  operations preserve);
* Python exceptions (`HandlerException`, `ValueError` from `list.remove`,
  `AssertionError`, `IndexError`) are modelled with `Except`;
* handler callbacks are opaque host code; they are modelled by a small
  behaviour language (`Cb`) covering the chain-control protocol the engine
  documents: observing callbacks that may mutate `event_args`, intercepting
  callbacks that short-circuit, propagate to `next_handler`, or read a key
  from `event_args`, and implementing callbacks computing a value from the
  positional arguments.
-/

namespace PyEventSystem

/-- Item of a glob bracket class `[...]`: a single character or a range
`a-b`, following how `fnmatch.translate` transcribes a class body into a
regex character class. -/
inductive ClsItem where
  | single (c : Char)
  | range (lo hi : Char)
deriving DecidableEq, Repr

/-- Tokens of a glob pattern as scanned by `fnmatch.translate`: `*` becomes
`.*`, `?` becomes `.`, a well-formed bracket class becomes a character
class, and every other character is matched literally. -/
inductive GTok where
  | lit (c : Char)
  | star
  | qmark
  | cls (neg : Bool) (items : List ClsItem)
deriving DecidableEq, Repr

/-- Scan forward to the closing `]` of a bracket class, returning the body
and the remainder of the pattern (models the `while pat[j] != ']'` scan in
`fnmatch.translate`). -/
def findClose : List Char → Option (List Char × List Char)
  | [] => none
  | c :: t =>
    if c = ']' then some ([], t)
    else
      match findClose t with
      | some (b, r) => some (c :: b, r)
      | none => none

theorem findClose_length : ∀ {t b r : List Char},
    findClose t = some (b, r) → r.length < t.length := by
  intro t
  induction t with
  | nil => intro b r h; simp [findClose] at h
  | cons c t ih =>
    intro b r h
    by_cases hc : c = ']'
    · rw [findClose, if_pos hc] at h
      simp only [Option.some.injEq, Prod.mk.injEq] at h
      obtain ⟨h1, h2⟩ := h
      subst h2
      simp only [List.length_cons]
      omega
    · simp only [findClose, if_neg hc] at h
      cases hfc : findClose t with
      | none => rw [hfc] at h; exact absurd h (by simp)
      | some br =>
        obtain ⟨b', r'⟩ := br
        rw [hfc] at h
        simp only [Option.some.injEq, Prod.mk.injEq] at h
        obtain ⟨h1, h2⟩ := h
        subst h2
        have := ih hfc
        simp only [List.length_cons]
        omega

/-- Strip the negation marker of a bracket class: in `fnmatch.translate` a
leading `!` after `[` negates the class. -/
def stripNeg (cs : List Char) : Bool × List Char :=
  match cs with
  | [] => (false, [])
  | c :: t => if c = '!' then (true, t) else (false, c :: t)

/-- Extract a bracket-class body and the rest of the pattern. A `]` that
appears first is a literal member of the class (the `if pat[j] == ']'`
skip in `fnmatch.translate`). `none` means no closing `]` exists. -/
def classBody (cs : List Char) : Option (List Char × List Char) :=
  match cs with
  | [] => none
  | c :: t =>
    if c = ']' then
      match findClose t with
      | some (b, r) => some (']' :: b, r)
      | none => none
    else findClose (c :: t)

theorem classBody_length : ∀ {cs b r : List Char},
    classBody cs = some (b, r) → r.length < cs.length := by
  intro cs b r h
  cases cs with
  | nil => simp [classBody] at h
  | cons c t =>
    by_cases hc : c = ']'
    · rw [classBody, if_pos hc] at h
      cases hfc : findClose t with
      | none => rw [hfc] at h; exact absurd h (by simp)
      | some br =>
        obtain ⟨b', r'⟩ := br
        rw [hfc] at h
        simp only [Option.some.injEq, Prod.mk.injEq] at h
        obtain ⟨h1, h2⟩ := h
        subst h2
        have := findClose_length hfc
        simp only [List.length_cons]
        omega
    · rw [classBody, if_neg hc] at h
      exact findClose_length h

/-- Split the characters following `[` into negation flag, class body and
remainder of the pattern, per `fnmatch.translate`. -/
def classSplit (cs : List Char) : Option (Bool × List Char × List Char) :=
  match classBody (stripNeg cs).2 with
  | some (b, r) => some ((stripNeg cs).1, b, r)
  | none => none

theorem stripNeg_length (cs : List Char) : (stripNeg cs).2.length ≤ cs.length := by
  cases cs with
  | nil => simp [stripNeg]
  | cons c t =>
    by_cases hc : c = '!' <;> simp [stripNeg, hc]

theorem classSplit_length : ∀ {cs : List Char} {n : Bool} {b r : List Char},
    classSplit cs = some (n, b, r) → r.length < cs.length := by
  intro cs n b r h
  unfold classSplit at h
  cases hcb : classBody (stripNeg cs).2 with
  | none => rw [hcb] at h; exact absurd h (by simp)
  | some br =>
    obtain ⟨b', r'⟩ := br
    rw [hcb] at h
    simp only [Option.some.injEq, Prod.mk.injEq] at h
    obtain ⟨h1, h2, h3⟩ := h
    subst h3
    have h4 := classBody_length hcb
    have h5 := stripNeg_length cs
    omega

/-- Parse the items of a bracket-class body: `a-b` is a range, everything
else is a single character (a `-` first or last is literal, as in a regex
character class). -/
def itemsOf : List Char → List ClsItem
  | a :: '-' :: b :: t => ClsItem.range a b :: itemsOf t
  | c :: t => ClsItem.single c :: itemsOf t
  | [] => []

/-- Tokenize a glob pattern, following the scanning loop of
`fnmatch.translate`: `*`, `?`, bracket classes (an unterminated `[` is a
literal), and literal characters. The fuel argument only serves structural
termination; `parseGlob` supplies enough for it never to run out. -/
def parseGlobF : Nat → List Char → List GTok
  | 0, _ => []
  | fuel + 1, cs =>
    match cs with
    | [] => []
    | c :: r =>
      if c = '*' then GTok.star :: parseGlobF fuel r
      else if c = '?' then GTok.qmark :: parseGlobF fuel r
      else if c = '[' then
        match classSplit r with
        | some (n, b, rest) => GTok.cls n (itemsOf b) :: parseGlobF fuel rest
        | none => GTok.lit '[' :: parseGlobF fuel r
      else GTok.lit c :: parseGlobF fuel r

/-- Tokenize a whole glob pattern (each scanning step consumes at least one
character, so `cs.length` steps always suffice). -/
def parseGlob (cs : List Char) : List GTok :=
  parseGlobF cs.length cs

/-- Does a character satisfy one item of a bracket class? -/
def clsItemMatch (c : Char) : ClsItem → Bool
  | ClsItem.single a => c == a
  | ClsItem.range lo hi => decide (lo ≤ c) && decide (c ≤ hi)

/-- Does a character satisfy a (possibly negated) bracket class? -/
def clsMatch (neg : Bool) (items : List ClsItem) (c : Char) : Bool :=
  let m := items.any (clsItemMatch c)
  if neg then !m else m

/-- Match a token list against an entire string: the semantics of the regex
`fnmatch.translate` produces (anchored at both ends): `.*` for `*`, `.`
for `?`, character classes, and literal characters. The fuel only serves
structural termination (every step shrinks tokens-plus-string), and
`gmatch` supplies enough for it never to run out. -/
def gmatchF : Nat → List GTok → List Char → Bool
  | 0, _, _ => false
  | fuel + 1, p, s =>
    match p, s with
    | [], [] => true
    | [], _ :: _ => false
    | GTok.star :: pr, s =>
      gmatchF fuel pr s ||
        (match s with
         | [] => false
         | _ :: s' => gmatchF fuel (GTok.star :: pr) s')
    | GTok.qmark :: _, [] => false
    | GTok.qmark :: pr, _ :: s' => gmatchF fuel pr s'
    | GTok.cls _ _ :: _, [] => false
    | GTok.cls n it :: pr, c :: s' => clsMatch n it c && gmatchF fuel pr s'
    | GTok.lit _ :: _, [] => false
    | GTok.lit a :: pr, c :: s' => (a == c) && gmatchF fuel pr s'

/-- Match a token list against an entire string (each step shrinks the
token list or the string, so `p.length + s.length + 1` fuel suffices). -/
def gmatch (p : List GTok) (s : List Char) : Bool :=
  gmatchF (p.length + s.length + 1) p s

/-- Full-name glob matching: the entire candidate string must match the
pattern. This is the semantics the specification ascribes to pattern
matching (`a pattern matches iff the entire name matches`). -/
def translate_fullmatch (pattern s : String) : Bool :=
  gmatch (parseGlob pattern.data) s.data

/-- Model of `re.search(fnmatch.translate(pattern), event)` as used in
`SimpleEventDispatcher._create_handler_cache` and `_invalidate_cache`:
`fnmatch.translate` produces a regex of the shape `(?s:...)\Z`, anchored at
the end of the string only, and `re.search` lets the match begin at any
position — so the pattern matches iff some suffix of `event` matches the
whole glob. -/
def re_search_translate (pattern event : String) : Bool :=
  event.data.tails.any (fun suf => gmatch (parseGlob pattern.data) suf)

example : re_search_translate "a.b.*" "a.b.c" = true := by decide
example : re_search_translate "a.b.*" "a.b.c.d" = true := by decide
example : re_search_translate "a.b.*" "a.c" = false := by decide
example : re_search_translate "*" "anything.at.all" = true := by decide
example : re_search_translate "b.c" "a.b.c" = true := by decide
example : translate_fullmatch "b.c" "a.b.c" = false := by decide
example : re_search_translate "a.?" "a.b" = true := by decide
example : re_search_translate "x[ab]" "xa" = true := by decide
example : re_search_translate "x[!ab]" "xa" = false := by decide

/-! ## Values, handlers and `event_args` dictionaries -/

/-- Runtime values flowing through callbacks and `dispatch` (Python's
`None`, strings, integers, and a handler object reference, compared by
identity via its id). -/
inductive Val where
  | none
  | str (s : String)
  | int (n : Int)
  | handlerRef (id : Nat)
deriving DecidableEq, Repr

/-- Behaviour language for the opaque host callbacks. Observing callbacks
may mutate `event_args` (`obsSetKey`) or be pure; intercepting callbacks
may short-circuit with a constant (`interConst`), invoke
`event_args['next_handler']` and return its result, or a default when it
is `None` (`interPass`), or return `event_args.get(k)` (`interReadKey`);
implementing callbacks compute a value from the positional arguments only,
as `ImplementingEventHandler.invoke` calls `self.callback(*args, **kwargs)`. -/
inductive Cb where
  | obsPure
  | obsSetKey (k : String) (v : Val)
  | interConst (v : Val)
  | interPass (dflt : Val)
  | interReadKey (k : String)
  | implConst (v : Val)
  | implNthArg (n : Nat)
deriving DecidableEq, Repr

/-- A callback: its `__name__` (used in the `HandlerException` message of
`_create_handler_cache`) and its behaviour. -/
structure Callback where
  name : String
  beh : Cb
deriving DecidableEq, Repr

/-- The three concrete handler classes of `events.py`. -/
inductive HandlerKind where
  | intercepting
  | observing
  | implementing
deriving DecidableEq, Repr

/-- A `BaseEventHandler`: `event_pattern`, `priority` and `callback` as in
the Python constructor, the concrete class as `kind`, and an `id` modelling
Python object identity (`BaseEventHandler` defines no `__eq__`, so `==` is
identity). The mutable `dispatcher` back-reference is modelled separately
in `World`. -/
structure EvHandler where
  id : Nat
  event_pattern : String
  priority : Int
  kind : HandlerKind
  callback : Callback
deriving DecidableEq, Repr

/-- A value stored in the `event_args` dict: either a plain value or a
handler object (as stored under `next_handler`). -/
inductive EVal where
  | v (x : Val)
  | handler (h : EvHandler)
deriving DecidableEq, Repr

/-- Python dict lookup (`d.get(k)`) on an insertion-ordered association
list. -/
def dictGet {β : Type} : List (String × β) → String → Option β
  | [], _ => none
  | (k', v) :: t, k => if k' = k then some v else dictGet t k

/-- Python dict store (`d[k] = v`): replaces in place, or appends a new
key at the end, preserving insertion order. -/
def dictSet {β : Type} : List (String × β) → String → β → List (String × β)
  | [], k, v => [(k, v)]
  | (k', v') :: t, k, v =>
    if k' = k then (k, v) :: t else (k', v') :: dictSet t k v

/-- Python dict removal (`d.pop(k, None)` / `del d[k]`). -/
def dictPop {β : Type} (l : List (String × β)) (k : String) : List (String × β) :=
  l.filter (fun kv => kv.1 ≠ k)

/-- The mutable `event_args` dict threaded through a handler chain. -/
def EventArgs : Type := List (String × EVal)

instance : DecidableEq EventArgs := by
  unfold EventArgs
  infer_instance

/-- What Python returns for `event_args.get(k)` when the callback hands the
value back to the engine: the stored value, the handler object itself (as
an identity reference), or `None` when the key is absent. -/
def evalToVal : Option EVal → Val
  | some (EVal.v x) => x
  | some (EVal.handler h) => Val.handlerRef h.id
  | Option.none => Val.none

/-- Run an observing callback on `event_args` (its return value is
discarded by `ObservingEventHandler.invoke`, so only its mutation of
`event_args` is modelled). -/
def runObsCb (cb : Cb) (ea : EventArgs) : EventArgs :=
  match cb with
  | Cb.obsSetKey k v => dictSet ea k (EVal.v v)
  | _ => ea

/-- Run an implementing callback: `self.callback(*args, **kwargs)` sees
only the positional/keyword arguments. -/
def runImplCb (cb : Cb) (args : List Val) : Val :=
  match cb with
  | Cb.implConst v => v
  | Cb.implNthArg n => (args.get? n).getD Val.none
  | _ => Val.none

/-! ## The dispatcher registry (`SimpleEventDispatcher`) -/

/-- State of a `SimpleEventDispatcher`: `__events` maps `event_pattern` to
the list of handlers subscribed under it, `__handler_cache` maps a concrete
event name to its resolved chain. -/
structure SimpleEventDispatcher where
  events : List (String × List EvHandler)
  handler_cache : List (String × List EvHandler)
deriving DecidableEq, Repr

/-- Errors raised by the engine: `HandlerException` with the data
interpolated into its message (event name, colliding priority, callback
names), `ValueError` from `list.remove`, `AssertionError` from
`_get_next_handler`, `IndexError`, a `TypeError` for a non-string event
key, and fuel exhaustion (an artefact of the model, never reached by
`dispatch` on well-formed chains). -/
inductive DispatchErr where
  | handlerConflict (event : String) (priority : Int) (names : List String)
  | valueError
  | assertionError
  | indexError
  | typeError
  | outOfFuel
deriving DecidableEq, Repr

/-- The `for prio in priority_list: if prio == guilty_prio: break;
guilty_prio = prio` loop of `_create_handler_cache`, which on the sorted
priority list stops at the first adjacent duplicate. -/
def firstAdjacentDup : List Int → Option Int
  | a :: b :: t => if a = b then some a else firstAdjacentDup (b :: t)
  | _ => none

/-- Comparison used to sort a chain: `cache_list.sort(key=lambda h:
h.priority)` (Python's sort is stable; `List.insertionSort` with `≤` on
the priority is the same stable sort, extensionally). -/
def prioLe (a b : EvHandler) : Prop := a.priority ≤ b.priority

instance : DecidableRel prioLe := fun a b => by
  unfold prioLe
  infer_instance

instance : IsTotal EvHandler prioLe :=
  ⟨fun a b => le_total a.priority b.priority⟩

instance : IsTrans EvHandler prioLe :=
  ⟨fun _ _ _ hab hbc => le_trans hab hbc⟩

/-- The handlers of every registered pattern matching `event`, gathered in
dict insertion order (the `for key in self.__events.keys(): if
re.search(fnmatch.translate(key), event): cache_list.extend(...)` loop). -/
def matchingUnion (evs : List (String × List EvHandler)) (event : String) :
    List EvHandler :=
  (evs.filter (fun kv => re_search_translate kv.1 event)).flatMap (fun kv => kv.2)

/-- `SimpleEventDispatcher._create_handler_cache`: gather the handlers of
all matching patterns, sort by priority, and fail with `HandlerException`
if any priority occurs more than once (naming the event, the first
colliding priority and the callback names at that priority). -/
def _create_handler_cache (evs : List (String × List EvHandler))
    (event : String) : Except DispatchErr (List EvHandler) :=
  let cache_list := (matchingUnion evs event).insertionSort prioLe
  let priority_list := cache_list.map (fun h => h.priority)
  if priority_list.Nodup then Except.ok cache_list
  else
    let guilty_prio := (firstAdjacentDup priority_list).getD 0
    let guilty_names :=
      (cache_list.filter (fun h => h.priority = guilty_prio)).map
        (fun h => h.callback.name)
    Except.error (DispatchErr.handlerConflict event guilty_prio guilty_names)

/-- `SimpleEventDispatcher.get_handlers_for_event`: return the cached chain
if present, otherwise compute it, store it and return it. -/
def get_handlers_for_event (d : SimpleEventDispatcher) (event : String) :
    Except DispatchErr (List EvHandler × SimpleEventDispatcher) :=
  match dictGet d.handler_cache event with
  | some handlers => Except.ok (handlers, d)
  | Option.none =>
    match _create_handler_cache d.events event with
    | Except.ok l =>
      Except.ok (l, { d with handler_cache := dictSet d.handler_cache event l })
    | Except.error e => Except.error e

/-- `SimpleEventDispatcher._invalidate_cache`: delete exactly the cached
event names that the mutated pattern matches. -/
def _invalidate_cache (d : SimpleEventDispatcher) (event_pattern : String) :
    SimpleEventDispatcher :=
  { d with
    handler_cache :=
      d.handler_cache.filter (fun kv => !(re_search_translate event_pattern kv.1)) }

/-- `SimpleEventDispatcher.subscribe`: append the handler to its pattern's
list (creating the key if needed) and invalidate affected cache entries.
(The `event_handler.dispatcher = self` assignment is modelled in `World`,
which tracks the back-references.) -/
def subscribe (d : SimpleEventDispatcher) (h : EvHandler) :
    SimpleEventDispatcher :=
  let handler_list := (dictGet d.events h.event_pattern).getD []
  _invalidate_cache
    { d with events := dictSet d.events h.event_pattern (handler_list ++ [h]) }
    h.event_pattern

/-- `SimpleEventDispatcher.unsubscribe`: `handler_list.remove(event_handler)`
removes the first occurrence and raises `ValueError` when absent (in which
case nothing is mutated); on success affected cache entries are
invalidated. -/
def unsubscribe (d : SimpleEventDispatcher) (h : EvHandler) :
    Except DispatchErr SimpleEventDispatcher :=
  let handler_list := (dictGet d.events h.event_pattern).getD []
  if h ∈ handler_list then
    Except.ok
      (_invalidate_cache
        { d with
          events := dictSet d.events h.event_pattern (handler_list.erase h) }
        h.event_pattern)
  else Except.error DispatchErr.valueError

/-- Models `bisect.bisect_left(handler_list, self)` through
`BaseEventHandler.__lt__` (comparison by priority): on a priority-sorted
list the leftmost insertion point is the number of elements of strictly
smaller priority. -/
def bisect_left (l : List EvHandler) (p : Int) : Nat :=
  l.countP (fun x => decide (x.priority < p))

/-- `BaseEventHandler._get_next_handler`: resolve the chain for `event`,
locate this handler by priority bisection, `assert handler_list[pos] ==
self` (identity), and return the element after it, or `None` when it is
last. A failed assert is `AssertionError`; `handler_list[pos]` out of
range is `IndexError`. -/
def _get_next_handler (d : SimpleEventDispatcher) (h : EvHandler)
    (event : String) :
    Except DispatchErr (Option EvHandler × SimpleEventDispatcher) :=
  match get_handlers_for_event d event with
  | Except.error e => Except.error e
  | Except.ok (handler_list, d1) =>
    let pos := bisect_left handler_list h.priority
    match handler_list.get? pos with
    | Option.none => Except.error DispatchErr.indexError
    | some x =>
      if x = h then
        if pos < handler_list.length - 1 then
          Except.ok (handler_list.get? (pos + 1), d1)
        else Except.ok (Option.none, d1)
      else Except.error DispatchErr.assertionError

/-! ## Chain invocation (`invoke` of the three handler classes) -/

/-- Read `event_args.get('event')` as the event name; a non-string value
makes the subsequent `re.search` raise, modelled as a `TypeError`. -/
def eaEvent (ea : EventArgs) : Option String :=
  match dictGet ea "event" with
  | some (EVal.v (Val.str s)) => some s
  | _ => Option.none

/-- `invoke` of the three handler classes, by `kind`:

* `ObservingEventHandler.invoke`: pop `next_handler` from `event_args`,
  look up the successor, run the callback discarding its result, then
  invoke the successor, or return `None` if there is none;
* `InterceptingEventHandler.invoke`: look up the successor, store it under
  `event_args['next_handler']`, run the callback (which controls
  propagation), pop `next_handler`, and return the callback's result;
* `ImplementingEventHandler.invoke`: run the callback on the positional
  arguments only, look up the successor; if one exists store it and the
  result under `event_args['next_handler']`/`['result']`, invoke it
  discarding its return value, pop both keys; always return the
  callback's own result.

The returned triple carries the result value, the mutated `event_args`
and the dispatcher state (whose cache successor lookups may fill). Fuel
only serves structural termination; `dispatch` supplies enough for
well-formed chains. -/
def invokeH : Nat → SimpleEventDispatcher → EvHandler → EventArgs →
    List Val → Except DispatchErr (Val × EventArgs × SimpleEventDispatcher)
  | 0, _, _, _, _ => Except.error DispatchErr.outOfFuel
  | fuel + 1, d, h, event_args, args =>
    match h.kind with
    | HandlerKind.observing =>
      let ea1 := dictPop event_args "next_handler"
      match eaEvent ea1 with
      | Option.none => Except.error DispatchErr.typeError
      | some ev =>
        match _get_next_handler d h ev with
        | Except.error e => Except.error e
        | Except.ok (next?, d1) =>
          let ea2 := runObsCb h.callback.beh ea1
          match next? with
          | some nh => invokeH fuel d1 nh ea2 args
          | Option.none => Except.ok (Val.none, ea2, d1)
    | HandlerKind.intercepting =>
      match eaEvent event_args with
      | Option.none => Except.error DispatchErr.typeError
      | some ev =>
        match _get_next_handler d h ev with
        | Except.error e => Except.error e
        | Except.ok (next?, d1) =>
          let ea1 := dictSet event_args "next_handler"
            (match next? with
             | some nh => EVal.handler nh
             | Option.none => EVal.v Val.none)
          match h.callback.beh with
          | Cb.interConst v =>
            Except.ok (v, dictPop ea1 "next_handler", d1)
          | Cb.interPass dflt =>
            match dictGet ea1 "next_handler" with
            | some (EVal.handler nh) =>
              match invokeH fuel d1 nh ea1 args with
              | Except.ok (r, ea2, d2) =>
                Except.ok (r, dictPop ea2 "next_handler", d2)
              | Except.error e => Except.error e
            | _ => Except.ok (dflt, dictPop ea1 "next_handler", d1)
          | Cb.interReadKey k =>
            Except.ok (evalToVal (dictGet ea1 k), dictPop ea1 "next_handler", d1)
          | _ => Except.ok (Val.none, dictPop ea1 "next_handler", d1)
    | HandlerKind.implementing =>
      let result := runImplCb h.callback.beh args
      match eaEvent event_args with
      | Option.none => Except.error DispatchErr.typeError
      | some ev =>
        match _get_next_handler d h ev with
        | Except.error e => Except.error e
        | Except.ok (next?, d1) =>
          match next? with
          | some nh =>
            let ea1 := dictSet (dictSet event_args "next_handler"
              (EVal.handler nh)) "result" (EVal.v result)
            match invokeH fuel d1 nh ea1 args with
            | Except.ok (_, ea2, d2) =>
              Except.ok
                (result, dictPop (dictPop ea2 "result") "next_handler", d2)
            | Except.error e => Except.error e
          | Option.none => Except.ok (result, event_args, d1)

/-- `SimpleEventDispatcher.dispatch`: resolve the chain; with no handlers
log a warning (the `Bool` component) and return `None`; otherwise invoke
only the first handler with `event_args = {'event': event, 'sender':
sender}` and the passthrough arguments, returning its result. -/
def dispatch (d : SimpleEventDispatcher) (sender : Val) (event : String)
    (args : List Val) :
    Except DispatchErr (Val × Bool × SimpleEventDispatcher) :=
  match get_handlers_for_event d event with
  | Except.error e => Except.error e
  | Except.ok (handlers, d1) =>
    match handlers with
    | [] => Except.ok (Val.none, true, d1)
    | h :: _ =>
      let event_args : EventArgs :=
        [("event", EVal.v (Val.str event)), ("sender", EVal.v sender)]
      match invokeH (handlers.length + 1) d1 h event_args args with
      | Except.ok (r, _, d2) => Except.ok (r, false, d2)
      | Except.error e => Except.error e

/-- Derived chain semantics: evaluating a handler with the list of its
successors, where successor lookup yields exactly the next list element.
`invokeH_eq_chainEval` proves this coincides with `invokeH` whenever the
dispatcher's cache holds the (strictly priority-sorted) resolved chain and
no callback overwrites the `event` key. -/
def chainEval : List EvHandler → EventArgs → List Val → Val × EventArgs
  | [], ea, _ => (Val.none, ea)
  | h :: rest, event_args, args =>
    match h.kind with
    | HandlerKind.observing =>
      let ea1 := dictPop event_args "next_handler"
      let ea2 := runObsCb h.callback.beh ea1
      match rest with
      | [] => (Val.none, ea2)
      | _ :: _ => chainEval rest ea2 args
    | HandlerKind.intercepting =>
      let ea1 := dictSet event_args "next_handler"
        (match rest.head? with
         | some nh => EVal.handler nh
         | Option.none => EVal.v Val.none)
      match h.callback.beh with
      | Cb.interConst v => (v, dictPop ea1 "next_handler")
      | Cb.interPass dflt =>
        match rest with
        | [] => (dflt, dictPop ea1 "next_handler")
        | _ :: _ =>
          let res := chainEval rest ea1 args
          (res.1, dictPop res.2 "next_handler")
      | Cb.interReadKey k =>
        (evalToVal (dictGet ea1 k), dictPop ea1 "next_handler")
      | _ => (Val.none, dictPop ea1 "next_handler")
    | HandlerKind.implementing =>
      let result := runImplCb h.callback.beh args
      match rest with
      | [] => (result, event_args)
      | nh :: _ =>
        let ea1 := dictSet (dictSet event_args "next_handler"
          (EVal.handler nh)) "result" (EVal.v result)
        let res := chainEval rest ea1 args
        (result, dictPop (dictPop res.2 "result") "next_handler")

/-! ## Dictionary algebra -/

theorem dictGet_dictSet_self {β : Type} (l : List (String × β)) (k : String)
    (v : β) : dictGet (dictSet l k v) k = some v := by
  induction l with
  | nil => simp [dictGet, dictSet]
  | cons kv t ih =>
    obtain ⟨k', v'⟩ := kv
    by_cases hk : k' = k
    · simp [dictSet, hk, dictGet]
    · simp [dictSet, hk, dictGet, ih]

theorem dictGet_dictSet_ne {β : Type} (l : List (String × β)) {k k' : String}
    (v : β) (hne : k ≠ k') : dictGet (dictSet l k v) k' = dictGet l k' := by
  induction l with
  | nil => simp [dictGet, dictSet, hne]
  | cons kv t ih =>
    obtain ⟨k0, v0⟩ := kv
    by_cases hk : k0 = k
    · subst hk
      simp [dictSet, dictGet, hne]
    · simp [dictSet, hk, dictGet, ih]

theorem dictPop_nil {β : Type} (k : String) :
    dictPop ([] : List (String × β)) k = [] := rfl

theorem dictPop_cons {β : Type} (k0 : String) (v0 : β) (t : List (String × β))
    (k : String) :
    dictPop ((k0, v0) :: t) k =
      if k0 = k then dictPop t k else (k0, v0) :: dictPop t k := by
  by_cases h : k0 = k <;> simp [dictPop, List.filter_cons, h]

theorem dictPop_dictSet_self {β : Type} (l : List (String × β)) (k : String)
    (v : β) : dictPop (dictSet l k v) k = dictPop l k := by
  induction l with
  | nil => simp [dictPop_nil, dictPop_cons, dictSet]
  | cons kv t ih =>
    obtain ⟨k0, v0⟩ := kv
    by_cases hk : k0 = k
    · subst hk
      simp [dictSet, dictPop_cons]
    · simp [dictSet, hk, dictPop_cons, ih]

theorem dictPop_dictSet_ne {β : Type} (l : List (String × β)) {k k' : String}
    (v : β) (hne : k ≠ k') :
    dictPop (dictSet l k v) k' = dictSet (dictPop l k') k v := by
  induction l with
  | nil => simp [dictPop_nil, dictPop_cons, dictSet, hne]
  | cons kv t ih =>
    obtain ⟨k0, v0⟩ := kv
    by_cases hk : k0 = k
    · subst hk
      simp [dictSet, dictPop_cons, hne, ih]
    · by_cases hk' : k0 = k'
      · subst hk'
        simp [dictSet, hk, dictPop_cons, ih]
      · simp [dictSet, hk, hk', dictPop_cons, ih]

theorem dictGet_dictPop_ne {β : Type} (l : List (String × β)) {k k' : String}
    (hne : k ≠ k') : dictGet (dictPop l k') k = dictGet l k := by
  induction l with
  | nil => simp [dictGet, dictPop_nil]
  | cons kv t ih =>
    obtain ⟨k0, v0⟩ := kv
    by_cases hk' : k0 = k'
    · have hkk : k0 ≠ k := by
        rw [hk']
        exact fun h => hne h.symm
      have hkk2 : k' ≠ k := fun h => hne h.symm
      simp [dictPop_cons, hk', dictGet, hkk, hkk2, ih]
    · by_cases hk : k0 = k
      · subst hk
        simp [dictPop_cons, hk', dictGet, ih]
      · simp [dictPop_cons, hk', dictGet, hk, ih]

theorem dictPop_idem {β : Type} (l : List (String × β)) (k : String) :
    dictPop (dictPop l k) k = dictPop l k := by
  unfold dictPop
  rw [List.filter_filter]
  simp

theorem dictPop_comm {β : Type} (l : List (String × β)) (k k' : String) :
    dictPop (dictPop l k) k' = dictPop (dictPop l k') k := by
  unfold dictPop
  rw [List.filter_filter, List.filter_filter]
  congr 1
  funext kv
  exact Bool.and_comm _ _

/-! ## Model sanity checks (the chain scenario of the specification):
interceptor at priority 900 that propagates, implementer at 950 returning
`"hello"`, observer at 1000; dispatching returns `"hello"`. -/

def exI : EvHandler :=
  { id := 1, event_pattern := "x.y", priority := 900,
    kind := HandlerKind.intercepting,
    callback := { name := "i", beh := Cb.interPass Val.none } }

def exM : EvHandler :=
  { id := 2, event_pattern := "x.y", priority := 950,
    kind := HandlerKind.implementing,
    callback := { name := "m", beh := Cb.implConst (Val.str "hello") } }

def exO : EvHandler :=
  { id := 3, event_pattern := "x.y", priority := 1000,
    kind := HandlerKind.observing,
    callback := { name := "o", beh := Cb.obsPure } }

def exD : SimpleEventDispatcher :=
  { events := [("x.y", [exI, exM, exO])], handler_cache := [] }

example :
    (match dispatch exD (Val.str "s") "x.y" [] with
     | Except.ok (r, _, _) => some r
     | Except.error _ => Option.none) = some (Val.str "hello") := by decide

example :
    (match dispatch exD (Val.str "s") "unknown.event" [] with
     | Except.ok (r, w, _) => some (r, w)
     | Except.error _ => Option.none) = some (Val.none, true) := by decide

/-! ## Sanity predicates and `event_args` invariance -/

/-- Strict priority order: a successfully resolved chain is sorted with
pairwise-distinct priorities, hence `Pairwise prioLt`. -/
def prioLt (a b : EvHandler) : Prop := a.priority < b.priority

instance : DecidableRel prioLt := fun a b => by
  unfold prioLt
  infer_instance

instance : IsAntisymm EvHandler prioLt :=
  ⟨fun a b hab hba => absurd (lt_trans hab hba) (lt_irrefl _)⟩

/-- A callback that respects the engine's chain-control protocol: an
observing callback does not overwrite the engine-owned `next_handler` and
`event` keys; an intercepting callback that reaches the end of the chain
returns `None` (rather than branching on its chain position), and does not
read the `next_handler` key other than to invoke it. -/
def cbSane : Cb → Bool
  | Cb.obsSetKey k _ => k != "next_handler" && k != "event"
  | Cb.interPass dflt => dflt == Val.none
  | Cb.interReadKey k => k != "next_handler"
  | _ => true

theorem eaEvent_dictPop_ne (ea : EventArgs) {k : String} (h : k ≠ "event") :
    eaEvent (dictPop ea k) = eaEvent ea := by
  unfold eaEvent
  rw [dictGet_dictPop_ne ea (fun hh => h hh.symm)]

theorem eaEvent_dictSet_ne (ea : EventArgs) {k : String} (v : EVal)
    (h : k ≠ "event") : eaEvent (dictSet ea k v) = eaEvent ea := by
  unfold eaEvent
  rw [dictGet_dictSet_ne ea v h]

theorem eaEvent_runObsCb (ea : EventArgs) {cb : Cb}
    (h : cbSane cb = true) : eaEvent (runObsCb cb ea) = eaEvent ea := by
  cases cb <;> simp [runObsCb]
  rename_i k v
  simp [cbSane] at h
  exact eaEvent_dictSet_ne ea (EVal.v v) h.2

/-! ## Successor lookup on a cached chain -/

theorem get_handlers_cached {d : SimpleEventDispatcher} {e : String}
    {L : List EvHandler} (hc : dictGet d.handler_cache e = some L) :
    get_handlers_for_event d e = Except.ok (L, d) := by
  unfold get_handlers_for_event
  rw [hc]

theorem bisect_left_append {l1 l2 : List EvHandler} {h : EvHandler}
    (hs : (l1 ++ h :: l2).Pairwise prioLt) :
    bisect_left (l1 ++ h :: l2) h.priority = l1.length := by
  unfold bisect_left
  rw [List.countP_append]
  have h1 : ∀ x ∈ l1, x.priority < h.priority := by
    intro x hx
    have := (List.pairwise_append.mp hs).2.2 x hx h (by simp)
    exact this
  have h2 : ∀ x ∈ h :: l2, ¬(x.priority < h.priority) := by
    intro x hx
    rcases List.mem_cons.mp hx with hx | hx
    · subst hx
      exact lt_irrefl _
    · have := (List.pairwise_cons.mp (List.pairwise_append.mp hs).2.1).1 x hx
      exact fun hlt => absurd (lt_trans this hlt) (lt_irrefl _)
  have e1 : (l1.countP fun x => decide (x.priority < h.priority)) = l1.length := by
    rw [List.countP_eq_length]
    intro a ha
    exact decide_eq_true (h1 a ha)
  have e2 : ((h :: l2).countP fun x => decide (x.priority < h.priority)) = 0 := by
    rw [List.countP_eq_zero]
    intro a ha
    simp only [decide_eq_true_eq]
    exact h2 a ha
  rw [e1, e2]
  omega

/-- On a strictly sorted cached chain, `_get_next_handler` finds the
handler at its position and returns the element after it (or `None` when
it is last), leaving the dispatcher untouched. -/
theorem get_next_of_cached {d : SimpleEventDispatcher} {e : String}
    {l1 l2 : List EvHandler} {h : EvHandler}
    (hc : dictGet d.handler_cache e = some (l1 ++ h :: l2))
    (hs : (l1 ++ h :: l2).Pairwise prioLt) :
    _get_next_handler d h e = Except.ok (l2.head?, d) := by
  unfold _get_next_handler
  rw [get_handlers_cached hc]
  dsimp only
  rw [bisect_left_append hs]
  have hget : (l1 ++ h :: l2).get? l1.length = some h := by
    rw [List.get?_append_right (le_refl _)]
    simp
  rw [hget]
  simp only [if_pos rfl]
  by_cases hl2 : l2 = []
  · subst hl2
    have hcond : ¬(l1.length < (l1 ++ h :: ([] : List EvHandler)).length - 1) := by
      simp
    rw [if_neg hcond]
    rfl
  · obtain ⟨nh, l2', rfl⟩ := List.exists_cons_of_ne_nil hl2
    have hcond : l1.length < (l1 ++ h :: nh :: l2').length - 1 := by
      simp only [List.length_append, List.length_cons]
      omega
    rw [if_pos hcond]
    have hget2 : (l1 ++ h :: nh :: l2').get? (l1.length + 1) = some nh := by
      rw [List.get?_append_right (by omega)]
      simp
    rw [hget2]
    rfl

/-! ## Bridge: `invokeH` equals `chainEval` on cached sorted chains -/

theorem invokeH_eq_chainEval :
    ∀ (fuel : Nat) (l1 l2 : List EvHandler) (h : EvHandler)
      (d : SimpleEventDispatcher) (ea : EventArgs) (args : List Val)
      (e : String),
      dictGet d.handler_cache e = some (l1 ++ h :: l2) →
      (l1 ++ h :: l2).Pairwise prioLt →
      eaEvent ea = some e →
      (∀ x ∈ l1 ++ h :: l2, cbSane x.callback.beh = true) →
      l2.length < fuel →
      invokeH fuel d h ea args =
        Except.ok ((chainEval (h :: l2) ea args).1,
          (chainEval (h :: l2) ea args).2, d) := by
  intro fuel
  induction fuel with
  | zero =>
    intro l1 l2 h d ea args e hc hs hev hsane hfuel
    exact absurd hfuel (by omega)
  | succ n ih =>
    intro l1 l2 h d ea args e hc hs hev hsane hfuel
    have hnext := get_next_of_cached hc hs
    have hsh : cbSane h.callback.beh = true := hsane h (by simp)
    cases hk : h.kind with
    | observing =>
      have hev1 : eaEvent (dictPop ea "next_handler") = some e := by
        rw [eaEvent_dictPop_ne ea (by decide)]
        exact hev
      have hev2 :
          eaEvent (runObsCb h.callback.beh (dictPop ea "next_handler")) =
            some e := by
        rw [eaEvent_runObsCb _ hsh]
        exact hev1
      cases l2 with
      | nil =>
        simp only [invokeH, hk, hev1, hnext, chainEval, List.head?]
      | cons nh l2' =>
        have hlist : (l1 ++ [h]) ++ nh :: l2' = l1 ++ h :: nh :: l2' := by
          simp
        have hc' : dictGet d.handler_cache e =
            some ((l1 ++ [h]) ++ nh :: l2') := by
          rw [hlist]
          exact hc
        have hs' : ((l1 ++ [h]) ++ nh :: l2').Pairwise prioLt := by
          rw [hlist]
          exact hs
        have hsane' : ∀ x ∈ (l1 ++ [h]) ++ nh :: l2',
            cbSane x.callback.beh = true := by
          rw [hlist]
          exact hsane
        have hfuel' : l2'.length < n := by
          simp only [List.length_cons] at hfuel
          omega
        have := ih (l1 ++ [h]) l2' nh d
          (runObsCb h.callback.beh (dictPop ea "next_handler")) args e hc' hs'
          hev2 hsane' hfuel'
        simp only [invokeH, hk, hev1, hnext, chainEval, List.head?, this]
    | intercepting =>
      cases hcb : h.callback.beh with
      | interConst v =>
        simp only [invokeH, hk, hev, hnext, hcb, chainEval]
      | interPass dflt =>
        cases l2 with
        | nil =>
          simp only [invokeH, hk, hev, hnext, hcb, List.head?,
            dictGet_dictSet_self, chainEval]
        | cons nh l2' =>
          have hlist : (l1 ++ [h]) ++ nh :: l2' = l1 ++ h :: nh :: l2' := by
            simp
          have hc' : dictGet d.handler_cache e =
              some ((l1 ++ [h]) ++ nh :: l2') := by
            rw [hlist]
            exact hc
          have hs' : ((l1 ++ [h]) ++ nh :: l2').Pairwise prioLt := by
            rw [hlist]
            exact hs
          have hsane' : ∀ x ∈ (l1 ++ [h]) ++ nh :: l2',
              cbSane x.callback.beh = true := by
            rw [hlist]
            exact hsane
          have hfuel' : l2'.length < n := by
            simp only [List.length_cons] at hfuel
            omega
          have hev' : eaEvent (dictSet ea "next_handler"
              (EVal.handler nh)) = some e := by
            rw [eaEvent_dictSet_ne ea _ (by decide)]
            exact hev
          have := ih (l1 ++ [h]) l2' nh d
            (dictSet ea "next_handler" (EVal.handler nh)) args e hc' hs'
            hev' hsane' hfuel'
          simp only [invokeH, hk, hev, hnext, hcb, List.head?,
            dictGet_dictSet_self, this, chainEval]
      | interReadKey k =>
        simp only [invokeH, hk, hev, hnext, hcb, chainEval]
      | obsPure =>
        simp only [invokeH, hk, hev, hnext, hcb, chainEval]
      | obsSetKey k v =>
        simp only [invokeH, hk, hev, hnext, hcb, chainEval]
      | implConst v =>
        simp only [invokeH, hk, hev, hnext, hcb, chainEval]
      | implNthArg n' =>
        simp only [invokeH, hk, hev, hnext, hcb, chainEval]
    | implementing =>
      cases l2 with
      | nil =>
        simp only [invokeH, hk, hev, hnext, chainEval, List.head?]
      | cons nh l2' =>
        have hlist : (l1 ++ [h]) ++ nh :: l2' = l1 ++ h :: nh :: l2' := by
          simp
        have hc' : dictGet d.handler_cache e =
            some ((l1 ++ [h]) ++ nh :: l2') := by
          rw [hlist]
          exact hc
        have hs' : ((l1 ++ [h]) ++ nh :: l2').Pairwise prioLt := by
          rw [hlist]
          exact hs
        have hsane' : ∀ x ∈ (l1 ++ [h]) ++ nh :: l2',
            cbSane x.callback.beh = true := by
          rw [hlist]
          exact hsane
        have hfuel' : l2'.length < n := by
          simp only [List.length_cons] at hfuel
          omega
        have hev' : eaEvent (dictSet (dictSet ea "next_handler"
            (EVal.handler nh)) "result"
            (EVal.v (runImplCb h.callback.beh args))) = some e := by
          rw [eaEvent_dictSet_ne _ _ (by decide),
            eaEvent_dictSet_ne _ _ (by decide)]
          exact hev
        have := ih (l1 ++ [h]) l2' nh d
          (dictSet (dictSet ea "next_handler" (EVal.handler nh)) "result"
            (EVal.v (runImplCb h.callback.beh args))) args e hc' hs'
          hev' hsane' hfuel'
        simp only [invokeH, hk, hev, hnext, List.head?, this, chainEval]

/-! ## Equivalence of `event_args` up to the engine-owned keys -/

/-- Two `event_args` dicts that agree except possibly at `next_handler`
(the key every handler kind overwrites or pops before reading). -/
def eqOffNh (ea ea' : EventArgs) : Prop :=
  dictPop ea "next_handler" = dictPop ea' "next_handler"

/-- Agreement except possibly at `next_handler` and `result` (the two keys
an enclosing `ImplementingEventHandler.invoke` pops after its successor
returns). -/
def eqOffNhRes (ea ea' : EventArgs) : Prop :=
  dictPop (dictPop ea "result") "next_handler" =
    dictPop (dictPop ea' "result") "next_handler"

theorem eqOffNhRes_of_eqOffNh {ea ea' : EventArgs} (h : eqOffNh ea ea') :
    eqOffNhRes ea ea' := by
  unfold eqOffNhRes
  rw [dictPop_comm ea "result" "next_handler",
    dictPop_comm ea' "result" "next_handler"]
  unfold eqOffNh at h
  rw [h]

theorem popNhRes_norm (x : EventArgs) :
    dictPop (dictPop (dictPop x "next_handler") "result") "next_handler" =
      dictPop (dictPop x "result") "next_handler" := by
  rw [dictPop_comm x "next_handler" "result", dictPop_idem]

theorem popPairIdem (x : EventArgs) :
    dictPop (dictPop (dictPop (dictPop x "result") "next_handler") "result")
        "next_handler" =
      dictPop (dictPop x "result") "next_handler" := by
  rw [dictPop_comm (dictPop x "result") "next_handler" "result",
    dictPop_idem, dictPop_idem]

theorem eqOffNhRes_pop_nh {ea ea' : EventArgs} (h : eqOffNhRes ea ea') :
    eqOffNhRes (dictPop ea "next_handler") (dictPop ea' "next_handler") := by
  unfold eqOffNhRes at *
  rw [popNhRes_norm, popNhRes_norm]
  exact h

theorem eqOffNhRes_popRes_popNh {ea ea' : EventArgs} (h : eqOffNhRes ea ea') :
    eqOffNhRes (dictPop (dictPop ea "result") "next_handler")
      (dictPop (dictPop ea' "result") "next_handler") := by
  unfold eqOffNhRes at *
  rw [popPairIdem, popPairIdem]
  exact h

theorem dictGet_congr_offNh {ea ea' : EventArgs} {k : String}
    (h : eqOffNh ea ea') (hk : k ≠ "next_handler") :
    dictGet ea k = dictGet ea' k := by
  unfold eqOffNh at h
  rw [← dictGet_dictPop_ne ea hk, h, dictGet_dictPop_ne ea' hk]

theorem popNh_setset (ea : EventArgs) (H R : EVal) :
    dictPop (dictSet (dictSet ea "next_handler" H) "result" R)
        "next_handler" =
      dictSet (dictPop ea "next_handler") "result" R := by
  rw [dictPop_dictSet_ne _ R (by decide), dictPop_dictSet_self]

/-! ## Chain congruence: `chainEval` respects `eqOffNh` -/

theorem chainEval_congr :
    ∀ (l : List EvHandler) (ea ea' : EventArgs) (args : List Val),
      (∀ x ∈ l, cbSane x.callback.beh = true) →
      eqOffNh ea ea' →
      (chainEval l ea args).1 = (chainEval l ea' args).1 ∧
        eqOffNhRes (chainEval l ea args).2 (chainEval l ea' args).2 := by
  intro l
  induction l with
  | nil =>
    intro ea ea' args _ hoff
    exact ⟨by trivial, eqOffNhRes_of_eqOffNh hoff⟩
  | cons h rest ih =>
    intro ea ea' args hsane hoff
    have hsh : cbSane h.callback.beh = true := hsane h (by simp)
    have hsrest : ∀ x ∈ rest, cbSane x.callback.beh = true :=
      fun x hx => hsane x (by simp [hx])
    have hoffeq : dictPop ea "next_handler" = dictPop ea' "next_handler" :=
      hoff
    cases hk : h.kind with
    | observing =>
      simp only [chainEval, hk]
      rw [hoffeq]
      exact ⟨by trivial, by rfl⟩
    | intercepting =>
      cases hcb : h.callback.beh with
      | interConst v =>
        simp only [chainEval, hk, hcb]
        refine ⟨by trivial, ?_⟩
        rw [dictPop_dictSet_self, dictPop_dictSet_self, hoffeq]
        exact eqOffNhRes_of_eqOffNh rfl
      | interPass dflt =>
        cases rest with
        | nil =>
          simp only [chainEval, hk, hcb]
          refine ⟨by trivial, ?_⟩
          rw [dictPop_dictSet_self, dictPop_dictSet_self, hoffeq]
          exact eqOffNhRes_of_eqOffNh rfl
        | cons r rest' =>
          simp only [chainEval, hk, hcb, List.head?]
          have hoff1 : eqOffNh
              (dictSet ea "next_handler" (EVal.handler r))
              (dictSet ea' "next_handler" (EVal.handler r)) := by
            unfold eqOffNh
            rw [dictPop_dictSet_self, dictPop_dictSet_self, hoffeq]
          obtain ⟨h1, h2⟩ := ih _ _ args hsrest hoff1
          exact ⟨h1, eqOffNhRes_pop_nh h2⟩
      | interReadKey k =>
        have hkk : k ≠ "next_handler" := by
          simp only [cbSane, hcb] at hsh
          simpa using hsh
        simp only [chainEval, hk, hcb]
        refine ⟨?_, ?_⟩
        · rw [dictGet_dictSet_ne _ _ (fun hh => hkk hh.symm),
            dictGet_dictSet_ne _ _ (fun hh => hkk hh.symm),
            dictGet_congr_offNh hoff hkk]
        · rw [dictPop_dictSet_self, dictPop_dictSet_self, hoffeq]
          exact eqOffNhRes_of_eqOffNh rfl
      | obsPure =>
        simp only [chainEval, hk, hcb]
        refine ⟨by trivial, ?_⟩
        rw [dictPop_dictSet_self, dictPop_dictSet_self, hoffeq]
        exact eqOffNhRes_of_eqOffNh rfl
      | obsSetKey k v =>
        simp only [chainEval, hk, hcb]
        refine ⟨by trivial, ?_⟩
        rw [dictPop_dictSet_self, dictPop_dictSet_self, hoffeq]
        exact eqOffNhRes_of_eqOffNh rfl
      | implConst v =>
        simp only [chainEval, hk, hcb]
        refine ⟨by trivial, ?_⟩
        rw [dictPop_dictSet_self, dictPop_dictSet_self, hoffeq]
        exact eqOffNhRes_of_eqOffNh rfl
      | implNthArg n =>
        simp only [chainEval, hk, hcb]
        refine ⟨by trivial, ?_⟩
        rw [dictPop_dictSet_self, dictPop_dictSet_self, hoffeq]
        exact eqOffNhRes_of_eqOffNh rfl
    | implementing =>
      cases rest with
      | nil =>
        simp only [chainEval, hk]
        exact ⟨by trivial, eqOffNhRes_of_eqOffNh hoff⟩
      | cons r rest' =>
        simp only [chainEval, hk]
        have hoff1 : eqOffNh
            (dictSet (dictSet ea "next_handler" (EVal.handler r)) "result"
              (EVal.v (runImplCb h.callback.beh args)))
            (dictSet (dictSet ea' "next_handler" (EVal.handler r)) "result"
              (EVal.v (runImplCb h.callback.beh args))) := by
          unfold eqOffNh
          rw [popNh_setset, popNh_setset, hoffeq]
        obtain ⟨h1, h2⟩ := ih _ _ args hsrest hoff1
        exact ⟨by trivial, eqOffNhRes_popRes_popNh h2⟩

/-! ## Observer transparency at the chain level -/

theorem chainEval_obs_step (h : EvHandler) (rest : List EvHandler)
    (ea : EventArgs) (args : List Val)
    (hk : h.kind = HandlerKind.observing) :
    chainEval (h :: rest) ea args =
      chainEval rest (runObsCb h.callback.beh (dictPop ea "next_handler"))
        args := by
  cases rest with
  | nil => simp [chainEval, hk]
  | cons r t => simp [chainEval, hk]

/-- Inserting a pure observing handler anywhere into a chain whose
callbacks are sane changes neither the value the chain computes nor the
final `event_args` beyond the engine-owned keys. -/
theorem chainEval_insert_observer :
    ∀ (l1 l2 : List EvHandler) (O : EvHandler) (args : List Val),
      O.kind = HandlerKind.observing →
      O.callback.beh = Cb.obsPure →
      (∀ x ∈ l1 ++ l2, cbSane x.callback.beh = true) →
      ∀ (ea ea' : EventArgs),
      eqOffNh ea ea' →
      (chainEval (l1 ++ l2) ea args).1 =
          (chainEval (l1 ++ O :: l2) ea' args).1 ∧
        eqOffNhRes (chainEval (l1 ++ l2) ea args).2
          (chainEval (l1 ++ O :: l2) ea' args).2 := by
  intro l1
  induction l1 with
  | nil =>
    intro l2 O args hOk hOcb hsane ea ea' hoff
    simp only [List.nil_append]
    rw [chainEval_obs_step O l2 ea' args hOk, hOcb]
    simp only [runObsCb]
    have hoff2 : eqOffNh ea (dictPop ea' "next_handler") := by
      unfold eqOffNh
      rw [dictPop_idem]
      exact hoff
    exact chainEval_congr l2 ea _ args (by simpa using hsane) hoff2
  | cons h t ih =>
    intro l2 O args hOk hOcb hsane ea ea' hoff
    have hsh : cbSane h.callback.beh = true := hsane h (by simp)
    have hst : ∀ x ∈ t ++ l2, cbSane x.callback.beh = true := by
      intro x hx
      apply hsane
      simp only [List.cons_append, List.mem_cons]
      right
      exact hx
    have hoffeq : dictPop ea "next_handler" = dictPop ea' "next_handler" :=
      hoff
    simp only [List.cons_append]
    cases hk : h.kind with
    | observing =>
      rw [chainEval_obs_step h (t ++ l2) ea args hk,
        chainEval_obs_step h (t ++ O :: l2) ea' args hk, hoffeq]
      exact ih l2 O args hOk hOcb hst _ _ rfl
    | intercepting =>
      cases hcb : h.callback.beh with
      | interConst v =>
        simp only [chainEval, hk, hcb]
        refine ⟨by trivial, ?_⟩
        rw [dictPop_dictSet_self, dictPop_dictSet_self, hoffeq]
        exact eqOffNhRes_of_eqOffNh rfl
      | interReadKey k =>
        have hkk : k ≠ "next_handler" := by
          simp only [cbSane, hcb] at hsh
          simpa using hsh
        simp only [chainEval, hk, hcb]
        refine ⟨?_, ?_⟩
        · rw [dictGet_dictSet_ne _ _ (fun hh => hkk hh.symm),
            dictGet_dictSet_ne _ _ (fun hh => hkk hh.symm),
            dictGet_congr_offNh hoff hkk]
        · rw [dictPop_dictSet_self, dictPop_dictSet_self, hoffeq]
          exact eqOffNhRes_of_eqOffNh rfl
      | interPass dflt =>
        have hdflt : dflt = Val.none := by
          simp only [cbSane, hcb] at hsh
          simpa using hsh
        subst hdflt
        cases t with
        | nil =>
          cases l2 with
          | nil =>
            simp only [chainEval, hk, hcb, List.nil_append, List.head?,
              hOk, hOcb, runObsCb]
            refine ⟨by trivial, ?_⟩
            rw [dictPop_dictSet_self, dictPop_idem, dictPop_dictSet_self,
              hoffeq]
            exact eqOffNhRes_of_eqOffNh rfl
          | cons y l2' =>
            have hoff1 : eqOffNh
                (dictSet ea "next_handler" (EVal.handler y))
                (dictSet ea' "next_handler" (EVal.handler O)) := by
              unfold eqOffNh
              rw [dictPop_dictSet_self, dictPop_dictSet_self, hoffeq]
            obtain ⟨h1, h2⟩ := ih (y :: l2') O args hOk hOcb hst _ _ hoff1
            simp only [List.nil_append] at h1 h2
            simp only [chainEval, hk, hcb, List.nil_append, List.head?]
            exact ⟨h1, eqOffNhRes_pop_nh h2⟩
        | cons x t' =>
          have hoff1 : eqOffNh
              (dictSet ea "next_handler" (EVal.handler x))
              (dictSet ea' "next_handler" (EVal.handler x)) := by
            unfold eqOffNh
            rw [dictPop_dictSet_self, dictPop_dictSet_self, hoffeq]
          obtain ⟨h1, h2⟩ := ih l2 O args hOk hOcb hst _ _ hoff1
          simp only [List.cons_append] at h1 h2
          simp only [chainEval, hk, hcb, List.cons_append, List.head?]
          exact ⟨h1, eqOffNhRes_pop_nh h2⟩
      | obsPure =>
        simp only [chainEval, hk, hcb]
        refine ⟨by trivial, ?_⟩
        rw [dictPop_dictSet_self, dictPop_dictSet_self, hoffeq]
        exact eqOffNhRes_of_eqOffNh rfl
      | obsSetKey k v =>
        simp only [chainEval, hk, hcb]
        refine ⟨by trivial, ?_⟩
        rw [dictPop_dictSet_self, dictPop_dictSet_self, hoffeq]
        exact eqOffNhRes_of_eqOffNh rfl
      | implConst v =>
        simp only [chainEval, hk, hcb]
        refine ⟨by trivial, ?_⟩
        rw [dictPop_dictSet_self, dictPop_dictSet_self, hoffeq]
        exact eqOffNhRes_of_eqOffNh rfl
      | implNthArg n =>
        simp only [chainEval, hk, hcb]
        refine ⟨by trivial, ?_⟩
        rw [dictPop_dictSet_self, dictPop_dictSet_self, hoffeq]
        exact eqOffNhRes_of_eqOffNh rfl
    | implementing =>
      cases t with
      | nil =>
        cases l2 with
        | nil =>
          simp only [chainEval, hk, List.nil_append, List.head?, hOk, hOcb,
            runObsCb]
          refine ⟨by trivial, ?_⟩
          rw [popNh_setset, dictPop_dictSet_self, popNhRes_norm]
          unfold eqOffNhRes
          rw [popPairIdem]
          exact eqOffNhRes_of_eqOffNh hoff
        | cons y l2' =>
          have hoff1 : eqOffNh
              (dictSet (dictSet ea "next_handler" (EVal.handler y)) "result"
                (EVal.v (runImplCb h.callback.beh args)))
              (dictSet (dictSet ea' "next_handler" (EVal.handler O)) "result"
                (EVal.v (runImplCb h.callback.beh args))) := by
            unfold eqOffNh
            rw [popNh_setset, popNh_setset, hoffeq]
          obtain ⟨h1, h2⟩ := ih (y :: l2') O args hOk hOcb hst _ _ hoff1
          simp only [List.nil_append] at h1 h2
          simp only [chainEval, hk, List.nil_append, List.head?]
          exact ⟨by trivial, eqOffNhRes_popRes_popNh h2⟩
      | cons x t' =>
        have hoff1 : eqOffNh
            (dictSet (dictSet ea "next_handler" (EVal.handler x)) "result"
              (EVal.v (runImplCb h.callback.beh args)))
            (dictSet (dictSet ea' "next_handler" (EVal.handler x)) "result"
              (EVal.v (runImplCb h.callback.beh args))) := by
          unfold eqOffNh
          rw [popNh_setset, popNh_setset, hoffeq]
        obtain ⟨h1, h2⟩ := ih l2 O args hOk hOcb hst _ _ hoff1
        simp only [List.cons_append] at h1 h2
        simp only [chainEval, hk, List.cons_append, List.head?]
        exact ⟨by trivial, eqOffNhRes_popRes_popNh h2⟩

/-! ## Properties of `_create_handler_cache` -/

theorem create_cache_ok_parts {evs : List (String × List EvHandler)}
    {e : String} {l : List EvHandler}
    (h : _create_handler_cache evs e = Except.ok l) :
    l.Pairwise prioLe ∧ (l.map (fun x => x.priority)).Nodup ∧
      l.Perm (matchingUnion evs e) := by
  simp only [_create_handler_cache] at h
  split at h
  · rename_i hn
    simp only [Except.ok.injEq] at h
    subst h
    refine ⟨List.sorted_insertionSort prioLe (matchingUnion evs e), hn, ?_⟩
    exact List.perm_insertionSort prioLe (matchingUnion evs e)
  · exact absurd h (by simp)

theorem create_cache_ok_strict {evs : List (String × List EvHandler)}
    {e : String} {l : List EvHandler}
    (h : _create_handler_cache evs e = Except.ok l) : l.Pairwise prioLt := by
  obtain ⟨hs, hn, _⟩ := create_cache_ok_parts h
  have hne : l.Pairwise (fun a b => a.priority ≠ b.priority) :=
    List.pairwise_map.mp hn
  exact (hs.and hne).imp (fun hab => lt_of_le_of_ne hab.1 hab.2)

theorem create_cache_error_of_dup {evs : List (String × List EvHandler)}
    {e : String}
    (hd : ¬(((matchingUnion evs e).insertionSort prioLe).map
      (fun x => x.priority)).Nodup) :
    _create_handler_cache evs e = Except.error
      (DispatchErr.handlerConflict e
        ((firstAdjacentDup (((matchingUnion evs e).insertionSort prioLe).map
          (fun x => x.priority))).getD 0)
        ((((matchingUnion evs e).insertionSort prioLe).filter
          (fun h => h.priority =
            (firstAdjacentDup (((matchingUnion evs e).insertionSort
              prioLe).map (fun x => x.priority))).getD 0)).map
          (fun h => h.callback.name))) := by
  unfold _create_handler_cache
  rw [if_neg hd]

/-- On a `≤`-sorted integer list that is not `Nodup`, the source's
`guilty_prio` loop finds an adjacent duplicate, and the list decomposes
around it. -/
theorem firstAdjacentDup_of_sorted :
    ∀ {l : List Int}, l.Pairwise (fun a b => a ≤ b) → ¬l.Nodup →
      ∃ g l1 l2, firstAdjacentDup l = some g ∧ l = l1 ++ g :: g :: l2 := by
  intro l
  induction l with
  | nil => intro _ hn; exact absurd List.nodup_nil hn
  | cons a t ih =>
    intro hs hn
    cases t with
    | nil => exact absurd (List.nodup_singleton a) hn
    | cons b t' =>
      by_cases hab : a = b
      · subst hab
        exact ⟨a, [], t', by simp [firstAdjacentDup], by simp⟩
      · have hs' : (b :: t').Pairwise (fun x y => x ≤ y) :=
          (List.pairwise_cons.mp hs).2
        have hn' : ¬(b :: t').Nodup := by
          intro hnd
          apply hn
          refine List.nodup_cons.mpr ⟨?_, hnd⟩
          intro hmem
          rcases List.mem_cons.mp hmem with hx | hx
          · exact hab hx
          · have hab' : a ≤ b := (List.pairwise_cons.mp hs).1 b (by simp)
            have hba : b ≤ a :=
              (List.pairwise_cons.mp hs').1 a hx
            exact hab (le_antisymm hab' hba)
        obtain ⟨g, l1, l2, hfad, hshape⟩ := ih hs' hn'
        refine ⟨g, a :: l1, l2, ?_, by simp [hshape]⟩
        simp only [firstAdjacentDup, if_neg hab]
        exact hfad

theorem count_ge_two_of_shape {g : Int} {l l1 l2 : List Int}
    (h : l = l1 ++ g :: g :: l2) :
    2 ≤ l.countP (fun x => decide (x = g)) := by
  subst h
  rw [List.countP_append]
  simp [List.countP_cons]
  omega

/-! ## Cache validity and its preservation -/

/-- The invariant of the resolution cache: every cached entry is exactly
what a from-scratch `_create_handler_cache` over the current registry
produces. -/
def validCache (d : SimpleEventDispatcher) : Prop :=
  ∀ e l, dictGet d.handler_cache e = some l →
    _create_handler_cache d.events e = Except.ok l

/-- The chain `get_handlers_for_event` hands out, forgetting the updated
dispatcher state. -/
def resolvedChain (d : SimpleEventDispatcher) (e : String) :
    Except DispatchErr (List EvHandler) :=
  match get_handlers_for_event d e with
  | Except.ok (l, _) => Except.ok l
  | Except.error er => Except.error er

theorem resolvedChain_fresh {d : SimpleEventDispatcher} {e : String}
    (hv : validCache d) :
    resolvedChain d e = _create_handler_cache d.events e := by
  cases hc : dictGet d.handler_cache e with
  | some l =>
    have h1 : get_handlers_for_event d e = Except.ok (l, d) :=
      get_handlers_cached hc
    unfold resolvedChain
    rw [h1]
    exact (hv e l hc).symm
  | none =>
    unfold resolvedChain get_handlers_for_event
    rw [hc]
    cases hcc : _create_handler_cache d.events e with
    | ok l => simp
    | error er => simp

theorem get_handlers_valid {d d' : SimpleEventDispatcher} {e : String}
    {l : List EvHandler} (hv : validCache d)
    (h : get_handlers_for_event d e = Except.ok (l, d')) :
    _create_handler_cache d.events e = Except.ok l ∧ validCache d' ∧
      d'.events = d.events ∧ dictGet d'.handler_cache e = some l := by
  unfold get_handlers_for_event at h
  cases hc : dictGet d.handler_cache e with
  | some l0 =>
    rw [hc] at h
    simp only [Except.ok.injEq, Prod.mk.injEq] at h
    obtain ⟨h1, h2⟩ := h
    subst h1
    subst h2
    exact ⟨hv e _ hc, hv, rfl, hc⟩
  | none =>
    rw [hc] at h
    cases hcc : _create_handler_cache d.events e with
    | ok l0 =>
      rw [hcc] at h
      simp only [Except.ok.injEq, Prod.mk.injEq] at h
      obtain ⟨h1, h2⟩ := h
      subst h1
      subst h2
      refine ⟨rfl, ?_, rfl, by simp [dictGet_dictSet_self]⟩
      intro e' l' hg'
      show _create_handler_cache d.events e' = Except.ok l'
      by_cases he : e = e'
      · subst he
        rw [dictGet_dictSet_self] at hg'
        simp only [Option.some.injEq] at hg'
        subst hg'
        exact hcc
      · rw [dictGet_dictSet_ne _ _ he] at hg'
        exact hv e' l' hg'
    | error er =>
      rw [hcc] at h
      exact absurd h (by simp)

theorem get_handlers_of_error {d : SimpleEventDispatcher} {e : String}
    {er : DispatchErr} (hv : validCache d)
    (h : _create_handler_cache d.events e = Except.error er) :
    get_handlers_for_event d e = Except.error er := by
  unfold get_handlers_for_event
  cases hc : dictGet d.handler_cache e with
  | some l0 => rw [hv e l0 hc] at h; exact absurd h (by simp)
  | none => rw [h]

theorem dictSet_cons_pos {β : Type} {k0 k : String} (v0 : β)
    (t : List (String × β)) (v : β) (h : k0 = k) :
    dictSet ((k0, v0) :: t) k v = (k, v) :: t := by
  simp [dictSet, h]

theorem dictSet_cons_neg {β : Type} {k0 k : String} (v0 : β)
    (t : List (String × β)) (v : β) (h : ¬k0 = k) :
    dictSet ((k0, v0) :: t) k v = (k0, v0) :: dictSet t k v := by
  simp [dictSet, h]

theorem dictGet_cons_pos {β : Type} {k0 k : String} (v0 : β)
    (t : List (String × β)) (h : k0 = k) :
    dictGet ((k0, v0) :: t) k = some v0 := by
  simp [dictGet, h]

theorem dictGet_cons_neg {β : Type} {k0 k : String} (v0 : β)
    (t : List (String × β)) (h : ¬k0 = k) :
    dictGet ((k0, v0) :: t) k = dictGet t k := by
  simp [dictGet, h]

/-- Looking up an event name in an invalidated cache: erased if the
mutated pattern matches it, otherwise unchanged. -/
theorem dictGet_invalidate (cache : List (String × List EvHandler))
    (p e : String) :
    dictGet (cache.filter (fun kv => !(re_search_translate p kv.1))) e =
      if re_search_translate p e then Option.none else dictGet cache e := by
  induction cache with
  | nil => simp [dictGet]
  | cons kv t ih =>
    obtain ⟨k0, v0⟩ := kv
    by_cases hq : re_search_translate p k0
    · rw [List.filter_cons_of_neg (by simp [hq])]
      by_cases hk : k0 = e
      · subst hk
        rw [ih, if_pos hq, if_pos hq]
      · rw [ih]
        by_cases hpe : re_search_translate p e
        · rw [if_pos hpe, if_pos hpe]
        · rw [if_neg hpe, if_neg hpe]
          simp [dictGet, hk]
    · rw [List.filter_cons_of_pos (by simp [hq])]
      by_cases hk : k0 = e
      · subst hk
        rw [if_neg (by simp [hq])]
        simp [dictGet]
      · simp only [dictGet, if_neg hk]
        exact ih

theorem matchingUnion_cons (k : String) (l0 : List EvHandler)
    (t : List (String × List EvHandler)) (e : String) :
    matchingUnion ((k, l0) :: t) e =
      if re_search_translate k e then l0 ++ matchingUnion t e
      else matchingUnion t e := by
  by_cases hm : re_search_translate k e
  · simp [matchingUnion, List.filter_cons, hm]
  · simp [matchingUnion, List.filter_cons, hm]

/-- Replacing (or creating) the entry of a pattern that does not match `e`
leaves the matching union for `e` unchanged. -/
theorem matchingUnion_dictSet_unmatched
    {evs : List (String × List EvHandler)} {p e : String}
    (L : List EvHandler) (hm : re_search_translate p e = false) :
    matchingUnion (dictSet evs p L) e = matchingUnion evs e := by
  induction evs with
  | nil =>
    show matchingUnion [(p, L)] e = matchingUnion [] e
    rw [matchingUnion_cons]
    simp [hm, matchingUnion, List.filter]
  | cons kv t ih =>
    obtain ⟨k0, l0⟩ := kv
    by_cases hk : k0 = p
    · subst hk
      rw [dictSet_cons_pos l0 t L rfl]
      rw [matchingUnion_cons, matchingUnion_cons, hm]
      simp
    · rw [dictSet_cons_neg l0 t L hk]
      rw [matchingUnion_cons, matchingUnion_cons, ih]

theorem create_cache_congr {evs evs' : List (String × List EvHandler)}
    {e : String}
    (h : matchingUnion evs' e = matchingUnion evs e) :
    _create_handler_cache evs' e = _create_handler_cache evs e := by
  unfold _create_handler_cache
  rw [h]

theorem subscribe_events (d : SimpleEventDispatcher) (h : EvHandler) :
    (subscribe d h).events =
      dictSet d.events h.event_pattern
        ((dictGet d.events h.event_pattern).getD [] ++ [h]) := rfl

theorem subscribe_cache (d : SimpleEventDispatcher) (h : EvHandler) :
    (subscribe d h).handler_cache =
      d.handler_cache.filter
        (fun kv => !(re_search_translate h.event_pattern kv.1)) := rfl

theorem valid_subscribe {d : SimpleEventDispatcher} (hv : validCache d)
    (h : EvHandler) : validCache (subscribe d h) := by
  intro e l hg
  rw [subscribe_cache, dictGet_invalidate] at hg
  split at hg
  · exact absurd hg (by simp)
  · rename_i hq
    simp only [Bool.not_eq_true] at hq
    rw [subscribe_events,
      create_cache_congr (matchingUnion_dictSet_unmatched _
        (by simpa using hq))]
    exact hv e l hg

theorem unsubscribe_ok_spec {d d' : SimpleEventDispatcher} {h : EvHandler}
    (hu : unsubscribe d h = Except.ok d') :
    h ∈ (dictGet d.events h.event_pattern).getD [] ∧
      d' = _invalidate_cache
        { events :=
            dictSet d.events h.event_pattern
              (((dictGet d.events h.event_pattern).getD []).erase h),
          handler_cache := d.handler_cache }
        h.event_pattern := by
  simp only [unsubscribe] at hu
  split at hu
  · rename_i hmem
    simp only [Except.ok.injEq] at hu
    exact ⟨hmem, hu.symm⟩
  · exact absurd hu (by simp)

theorem valid_unsubscribe {d d' : SimpleEventDispatcher} {h : EvHandler}
    (hv : validCache d) (hu : unsubscribe d h = Except.ok d') :
    validCache d' := by
  obtain ⟨hmem, hd'⟩ := unsubscribe_ok_spec hu
  subst hd'
  intro e l hg
  simp only [_invalidate_cache] at hg
  rw [dictGet_invalidate] at hg
  split at hg
  · exact absurd hg (by simp)
  · rename_i hq
    simp only [Bool.not_eq_true] at hq
    show _create_handler_cache
      (dictSet d.events h.event_pattern
        (((dictGet d.events h.event_pattern).getD []).erase h)) e =
      Except.ok l
    rw [create_cache_congr (matchingUnion_dictSet_unmatched _
      (by simpa using hq))]
    exact hv e l hg

/-! ## Reachable dispatcher states -/

def emptyDispatcher : SimpleEventDispatcher :=
  { events := [], handler_cache := [] }

/-- The public registry operations (a failing `unsubscribe` raises before
mutating anything, so the state is unchanged; same for a resolution that
raises `HandlerException`). -/
inductive DOp where
  | sub (h : EvHandler)
  | unsub (h : EvHandler)
  | query (e : String)

def runOp (d : SimpleEventDispatcher) : DOp → SimpleEventDispatcher
  | DOp.sub h => subscribe d h
  | DOp.unsub h =>
    match unsubscribe d h with
    | Except.ok d' => d'
    | Except.error _ => d
  | DOp.query e =>
    match get_handlers_for_event d e with
    | Except.ok (_, d') => d'
    | Except.error _ => d

def runOps (ops : List DOp) : SimpleEventDispatcher :=
  ops.foldl runOp emptyDispatcher

theorem valid_runOp {d : SimpleEventDispatcher} (hv : validCache d)
    (op : DOp) : validCache (runOp d op) := by
  cases op with
  | sub h => exact valid_subscribe hv h
  | unsub h =>
    simp only [runOp]
    cases hu : unsubscribe d h with
    | ok d' => exact valid_unsubscribe hv hu
    | error er => exact hv
  | query e =>
    simp only [runOp]
    cases hq : get_handlers_for_event d e with
    | ok p =>
      obtain ⟨l, d'⟩ := p
      exact (get_handlers_valid hv hq).2.1
    | error er => exact hv

theorem valid_empty : validCache emptyDispatcher := by
  intro e l hg
  simp [emptyDispatcher, dictGet] at hg

theorem valid_runOps (ops : List DOp) : validCache (runOps ops) := by
  unfold runOps
  suffices hgen : ∀ d, validCache d → validCache (ops.foldl runOp d) from
    hgen emptyDispatcher valid_empty
  induction ops with
  | nil => intro d hv; exact hv
  | cons op t ih =>
    intro d hv
    exact ih (runOp d op) (valid_runOp hv op)

/-! ## Worlds: several dispatchers and the handlers' back-references

`BaseEventHandler.__dispatcher` is a mutable field on the handler object;
it is modelled as a finite map from handler id to the index of the owning
dispatcher (`none` both for an absent entry and for an explicit `None`,
matching the field's initial value). -/

def refGet : List (Nat × Option Nat) → Nat → Option (Option Nat)
  | [], _ => Option.none
  | (k', v) :: t, k => if k' = k then some v else refGet t k

def refSet : List (Nat × Option Nat) → Nat → Option Nat →
    List (Nat × Option Nat)
  | [], k, v => [(k, v)]
  | (k', v') :: t, k, v =>
    if k' = k then (k, v) :: t else (k', v') :: refSet t k v

theorem refGet_refSet_self (m : List (Nat × Option Nat)) (k : Nat)
    (v : Option Nat) : refGet (refSet m k v) k = some v := by
  induction m with
  | nil => simp [refGet, refSet]
  | cons kv t ih =>
    obtain ⟨k', v'⟩ := kv
    by_cases hk : k' = k
    · simp [refSet, hk, refGet]
    · simp [refSet, hk, refGet, ih]

theorem refGet_refSet_ne (m : List (Nat × Option Nat)) {k k' : Nat}
    (v : Option Nat) (hne : k ≠ k') :
    refGet (refSet m k v) k' = refGet m k' := by
  induction m with
  | nil => simp [refGet, refSet, hne]
  | cons kv t ih =>
    obtain ⟨k0, v0⟩ := kv
    by_cases hk : k0 = k
    · subst hk
      simp [refSet, refGet, hne]
    · simp [refSet, hk, refGet, ih]

theorem refSet_refSet_same (m : List (Nat × Option Nat)) (k : Nat)
    (v v' : Option Nat) : refSet (refSet m k v) k v' = refSet m k v' := by
  induction m with
  | nil => simp [refSet]
  | cons kv t ih =>
    obtain ⟨k0, v0⟩ := kv
    by_cases hk : k0 = k
    · simp [refSet, hk]
    · simp [refSet, hk, ih]

/-- A world: the dispatcher objects in play and the handlers' `dispatcher`
back-references (by handler id, modelling object identity). -/
structure World where
  disps : List SimpleEventDispatcher
  hdisp : List (Nat × Option Nat)
deriving DecidableEq, Repr

/-- The `dispatcher` field of the handler with id `i`. -/
def worldDispOf (w : World) (i : Nat) : Option Nat :=
  (refGet w.hdisp i).getD Option.none

def getDisp (w : World) (di : Nat) : SimpleEventDispatcher :=
  w.disps.getD di emptyDispatcher

/-- `SimpleEventDispatcher.subscribe` seen from the world:
`event_handler.dispatcher = self` (overwriting any previous reference)
followed by the registry append and cache invalidation. -/
def wSubscribe (w : World) (di : Nat) (h : EvHandler) : World :=
  { disps := w.disps.set di (subscribe (getDisp w di) h),
    hdisp := refSet w.hdisp h.id (some di) }

/-- `SimpleEventDispatcher.unsubscribe` seen from the world: the
`list.remove` may raise `ValueError`, in which case nothing at all is
mutated; on success the handler's reference is cleared. -/
def wUnsubscribeD (w : World) (di : Nat) (h : EvHandler) :
    Except DispatchErr World :=
  match unsubscribe (getDisp w di) h with
  | Except.ok d' =>
    Except.ok { disps := w.disps.set di d',
                hdisp := refSet w.hdisp h.id Option.none }
  | Except.error er => Except.error er

/-- `BaseEventHandler.unsubscribe`: `if self.dispatcher:
self.dispatcher.unsubscribe(self)` then `self.dispatcher = None` (the
final assignment is not reached when the dispatcher raised). -/
def wHandlerUnsubscribe (w : World) (h : EvHandler) :
    Except DispatchErr World :=
  match worldDispOf w h.id with
  | some di =>
    match wUnsubscribeD w di h with
    | Except.ok w' =>
      Except.ok { w' with hdisp := refSet w'.hdisp h.id Option.none }
    | Except.error er => Except.error er
  | Option.none =>
    Except.ok { w with hdisp := refSet w.hdisp h.id Option.none }

theorem getD_set_self {α : Type} :
    ∀ (l : List α) (i : Nat) (a dflt : α), i < l.length →
      (l.set i a).getD i dflt = a := by
  intro l
  induction l with
  | nil => intro i a dflt h; simp at h
  | cons x t ih =>
    intro i a dflt h
    cases i with
    | zero => simp [List.set, List.getD]
    | succ j =>
      simp only [List.set, List.getD_cons_succ]
      exact ih j a dflt (by simpa using h)

theorem unsubscribe_not_mem {d : SimpleEventDispatcher} {h : EvHandler}
    (hm : h ∉ (dictGet d.events h.event_pattern).getD []) :
    unsubscribe d h = Except.error DispatchErr.valueError := by
  simp only [unsubscribe]
  rw [if_neg hm]

theorem unsubscribe_mem_ok {d : SimpleEventDispatcher} {h : EvHandler}
    (hm : h ∈ (dictGet d.events h.event_pattern).getD []) :
    unsubscribe d h = Except.ok
      (_invalidate_cache
        { events :=
            dictSet d.events h.event_pattern
              (((dictGet d.events h.event_pattern).getD []).erase h),
          handler_cache := d.handler_cache }
        h.event_pattern) := by
  simp only [unsubscribe]
  rw [if_pos hm]

/-! ## Counting handler occurrences by id -/

/-- Number of handlers with id `i` registered across all patterns of an
`__events` registry. -/
def evCount (evs : List (String × List EvHandler)) (i : Nat) : Nat :=
  (evs.map (fun kv => kv.2.countP (fun x => decide (x.id = i)))).sum

def countIn (d : SimpleEventDispatcher) (i : Nat) : Nat := evCount d.events i

/-- Number of handlers with id `i` registered across every dispatcher of
the world. -/
def occCountW (w : World) (i : Nat) : Nat :=
  (w.disps.map (fun d => countIn d i)).sum

theorem evCount_cons (k : String) (l0 : List EvHandler)
    (t : List (String × List EvHandler)) (i : Nat) :
    evCount ((k, l0) :: t) i =
      l0.countP (fun x => decide (x.id = i)) + evCount t i := by
  simp [evCount]

theorem evCount_dictSet_append (evs : List (String × List EvHandler))
    (p : String) (h : EvHandler) (i : Nat) :
    evCount (dictSet evs p ((dictGet evs p).getD [] ++ [h])) i =
      evCount evs i + (if h.id = i then 1 else 0) := by
  induction evs with
  | nil =>
    simp only [dictGet, Option.getD_none, List.nil_append]
    show evCount [(p, [h])] i = evCount [] i + _
    rw [evCount_cons]
    simp [evCount, List.countP_cons, List.countP_nil]
  | cons kv t ih =>
    obtain ⟨k0, l0⟩ := kv
    by_cases hk : k0 = p
    · subst hk
      rw [dictGet_cons_pos l0 t rfl]
      simp only [Option.getD_some]
      rw [dictSet_cons_pos l0 t _ rfl, evCount_cons, evCount_cons,
        List.countP_append]
      simp only [List.countP_cons, List.countP_nil, decide_eq_true_eq]
      omega
    · rw [dictGet_cons_neg l0 t hk, dictSet_cons_neg l0 _ _ hk,
        evCount_cons, evCount_cons, ih]
      omega

theorem countP_erase_of_mem {h : EvHandler} {L : List EvHandler}
    (p : EvHandler → Bool) (hm : h ∈ L) :
    L.countP p = (L.erase h).countP p + (if p h then 1 else 0) := by
  induction L with
  | nil => exact absurd hm (by simp)
  | cons a t ih =>
    by_cases ha : a = h
    · subst ha
      rw [List.erase_cons_head, List.countP_cons]
    · have hm' : h ∈ t := by
        rcases List.mem_cons.mp hm with hx | hx
        · exact absurd hx.symm ha
        · exact hx
      rw [List.erase_cons_tail (by simpa using ha), List.countP_cons,
        List.countP_cons, ih hm']
      omega

theorem evCount_dictSet_erase {evs : List (String × List EvHandler)}
    {p : String} {h : EvHandler} (i : Nat)
    (hm : h ∈ (dictGet evs p).getD []) :
    evCount (dictSet evs p (((dictGet evs p).getD []).erase h)) i +
        (if h.id = i then 1 else 0) = evCount evs i := by
  induction evs with
  | nil => simp [dictGet] at hm
  | cons kv t ih =>
    obtain ⟨k0, l0⟩ := kv
    by_cases hk : k0 = p
    · subst hk
      rw [dictGet_cons_pos l0 t rfl] at hm ⊢
      simp only [Option.getD_some] at hm ⊢
      rw [dictSet_cons_pos l0 t _ rfl, evCount_cons, evCount_cons,
        countP_erase_of_mem _ hm]
      simp only [decide_eq_true_eq]
      omega
    · rw [dictGet_cons_neg l0 t hk] at hm ⊢
      rw [dictSet_cons_neg l0 _ _ hk, evCount_cons, evCount_cons]
      have := ih hm
      omega

theorem countIn_subscribe (d : SimpleEventDispatcher) (h : EvHandler)
    (i : Nat) :
    countIn (subscribe d h) i = countIn d i + (if h.id = i then 1 else 0) := by
  show evCount (subscribe d h).events i = _
  rw [subscribe_events]
  exact evCount_dictSet_append d.events h.event_pattern h i

theorem evCount_ge_entry (evs : List (String × List EvHandler)) (p : String)
    (i : Nat) :
    ((dictGet evs p).getD []).countP (fun x => decide (x.id = i)) ≤
      evCount evs i := by
  induction evs with
  | nil => simp [dictGet, evCount]
  | cons kv t ih =>
    obtain ⟨k0, l0⟩ := kv
    rw [evCount_cons]
    by_cases hk : k0 = p
    · subst hk
      rw [dictGet_cons_pos l0 t rfl]
      simp only [Option.getD_some]
      omega
    · rw [dictGet_cons_neg l0 t hk]
      omega

/-! ## Sums over dispatcher lists -/

theorem sum_map_set {α : Type} (f : α → Nat) :
    ∀ (l : List α) (i : Nat) (a dflt : α), i < l.length →
      ((l.set i a).map f).sum + f (l.getD i dflt) = (l.map f).sum + f a := by
  intro l
  induction l with
  | nil => intro i a dflt h; simp at h
  | cons x t ih =>
    intro i a dflt h
    cases i with
    | zero => simp [List.set]; omega
    | succ j =>
      simp only [List.set, List.map_cons, List.sum_cons, List.getD_cons_succ]
      have := ih j a dflt (by simpa using h)
      omega

theorem getD_map_le_sum {α : Type} (f : α → Nat) :
    ∀ (l : List α) (i : Nat) (dflt : α), i < l.length →
      f (l.getD i dflt) ≤ (l.map f).sum := by
  intro l
  induction l with
  | nil => intro i dflt h; simp at h
  | cons x t ih =>
    intro i dflt h
    cases i with
    | zero =>
      simp only [List.getD_cons_zero, List.map_cons, List.sum_cons]
      omega
    | succ j =>
      simp only [List.map_cons, List.sum_cons, List.getD_cons_succ]
      have := ih j dflt (by simpa using h)
      omega

theorem getD_set_ne {α : Type} :
    ∀ (l : List α) {i j : Nat} (a dflt : α), i ≠ j →
      (l.set i a).getD j dflt = l.getD j dflt := by
  intro l
  induction l with
  | nil => intro i j a dflt _; simp [List.set]
  | cons x t ih =>
    intro i j a dflt hne
    cases i with
    | zero =>
      cases j with
      | zero => exact absurd rfl hne
      | succ j' => simp [List.set]
    | succ i' =>
      cases j with
      | zero => simp [List.set]
      | succ j' =>
        simp only [List.set, List.getD_cons_succ]
        exact ih a dflt (fun hh => hne (by rw [hh]))

theorem getD_out_of_range {α : Type} :
    ∀ (l : List α) {i : Nat} (dflt : α), ¬i < l.length →
      l.getD i dflt = dflt := by
  intro l
  induction l with
  | nil => intro i dflt _; simp [List.getD]
  | cons x t ih =>
    intro i dflt h
    cases i with
    | zero => simp at h
    | succ j =>
      simp only [List.getD_cons_succ]
      exact ih dflt (by simpa using h)

theorem sum_two_indices {α : Type} (f : α → Nat) :
    ∀ (l : List α) {i j : Nat} (dflt : α), i < l.length → j < l.length →
      i ≠ j → f (l.getD i dflt) + f (l.getD j dflt) ≤ (l.map f).sum := by
  intro l
  induction l with
  | nil => intro i j dflt hi _ _; simp at hi
  | cons x t ih =>
    intro i j dflt hi hj hne
    cases i with
    | zero =>
      cases j with
      | zero => exact absurd rfl hne
      | succ j' =>
        simp only [List.getD_cons_zero, List.getD_cons_succ, List.map_cons,
          List.sum_cons]
        have := getD_map_le_sum f t j' dflt (by simpa using hj)
        omega
    | succ i' =>
      cases j with
      | zero =>
        simp only [List.getD_cons_zero, List.getD_cons_succ, List.map_cons,
          List.sum_cons]
        have := getD_map_le_sum f t i' dflt (by simpa using hi)
        omega
      | succ j' =>
        simp only [List.getD_cons_succ, List.map_cons, List.sum_cons]
        have := ih dflt (by simpa using hi) (by simpa using hj)
          (fun hh => hne (by rw [hh]))
        omega

/-! ## The ownership invariant of worlds -/

/-- The ownership invariant: a handler id with a non-null `dispatcher`
reference occurs exactly once in the registries, namely in the dispatcher
the reference names; a detached id occurs nowhere. -/
def WInv (w : World) : Prop :=
  ∀ i : Nat,
    match worldDispOf w i with
    | some di => di < w.disps.length ∧ occCountW w i = 1 ∧
        countIn (getDisp w di) i = 1
    | Option.none => occCountW w i = 0

theorem occCountW_set (w : World) (di : Nat) (d' : SimpleEventDispatcher)
    (m : List (Nat × Option Nat)) (i : Nat) (hlt : di < w.disps.length) :
    occCountW { disps := w.disps.set di d', hdisp := m } i +
        countIn (getDisp w di) i =
      occCountW w i + countIn d' i :=
  sum_map_set (fun d => countIn d i) w.disps di d' emptyDispatcher hlt

theorem countIn_le_occ (w : World) (di : Nat) (i : Nat)
    (hlt : di < w.disps.length) :
    countIn (getDisp w di) i ≤ occCountW w i :=
  getD_map_le_sum (fun d => countIn d i) w.disps di emptyDispatcher hlt

theorem winv_subscribe {w : World} {di : Nat} {h : EvHandler}
    (hinv : WInv w) (hnone : worldDispOf w h.id = Option.none)
    (hlt : di < w.disps.length) : WInv (wSubscribe w di h) := by
  have hocc0 : occCountW w h.id = 0 := by
    have hx := hinv h.id
    rw [hnone] at hx
    exact hx
  unfold WInv
  intro i
  have hsum : occCountW (wSubscribe w di h) i + countIn (getDisp w di) i =
      occCountW w i + countIn (subscribe (getDisp w di) h) i :=
    occCountW_set w di (subscribe (getDisp w di) h)
      (refSet w.hdisp h.id (some di)) i hlt
  have hcnt := countIn_subscribe (getDisp w di) h i
  by_cases hi : h.id = i
  · subst hi
    have hw : worldDispOf (wSubscribe w di h) h.id = some di := by
      unfold worldDispOf wSubscribe
      rw [refGet_refSet_self]
      rfl
    simp only [hw]
    have hle := countIn_le_occ w di h.id hlt
    refine ⟨?_, ?_, ?_⟩
    · show di < (wSubscribe w di h).disps.length
      simp only [wSubscribe, List.length_set]
      exact hlt
    · show occCountW (wSubscribe w di h) h.id = 1
      have hcnt1 : countIn (subscribe (getDisp w di) h) h.id =
          countIn (getDisp w di) h.id + 1 := by
        rw [hcnt]
        simp
      omega
    · have hgd : getDisp (wSubscribe w di h) di =
          subscribe (getDisp w di) h := by
        unfold getDisp wSubscribe
        exact getD_set_self _ _ _ _ hlt
      rw [hgd, hcnt]
      simp only [if_pos rfl, if_true]
      omega
  · have hw : worldDispOf (wSubscribe w di h) i = worldDispOf w i := by
      unfold worldDispOf wSubscribe
      rw [refGet_refSet_ne _ _ hi]
    simp only [hw]
    have hcnt0 : countIn (subscribe (getDisp w di) h) i =
        countIn (getDisp w di) i := by
      rw [hcnt, if_neg hi]
      omega
    have hIi := hinv i
    cases hwi : worldDispOf w i with
    | none =>
      rw [hwi] at hIi
      simp only [hwi]
      omega
    | some dj =>
      rw [hwi] at hIi
      simp only [hwi]
      obtain ⟨hdj, hocc1, hcj⟩ := hIi
      refine ⟨?_, ?_, ?_⟩
      · show dj < (wSubscribe w di h).disps.length
        simp only [wSubscribe, List.length_set]
        exact hdj
      · omega
      · by_cases hdij : dj = di
        · subst hdij
          have hgd : getDisp (wSubscribe w dj h) dj =
              subscribe (getDisp w dj) h := by
            unfold getDisp wSubscribe
            exact getD_set_self _ _ _ _ hlt
          rw [hgd, hcnt]
          omega
        · have hgd : getDisp (wSubscribe w di h) dj = getDisp w dj := by
            unfold getDisp wSubscribe
            exact getD_set_ne _ _ _ (fun hh => hdij hh.symm)
          rw [hgd]
          exact hcj

theorem winv_unsubD {w : World} {di : Nat} {h : EvHandler} {w' : World}
    (hinv : WInv w) (hok : wUnsubscribeD w di h = Except.ok w') :
    WInv w' := by
  unfold wUnsubscribeD at hok
  cases hu : unsubscribe (getDisp w di) h with
  | error er => rw [hu] at hok; exact absurd hok (by simp)
  | ok d' =>
    rw [hu] at hok
    simp only [Except.ok.injEq] at hok
    subst hok
    obtain ⟨hmem, hd'⟩ := unsubscribe_ok_spec hu
    have hlt : di < w.disps.length := by
      by_contra hnlt
      rw [show getDisp w di = emptyDispatcher from
        getD_out_of_range _ _ hnlt] at hmem
      simp [emptyDispatcher, dictGet] at hmem
    have hcnt : ∀ i, countIn d' i + (if h.id = i then 1 else 0) =
        countIn (getDisp w di) i := by
      intro i
      rw [hd']
      exact evCount_dictSet_erase i hmem
    have hpos : 1 ≤ countIn (getDisp w di) h.id := by
      have h1 : 0 < ((dictGet (getDisp w di).events
          h.event_pattern).getD []).countP (fun x => decide (x.id = h.id)) := by
        rw [List.countP_pos]
        exact ⟨h, hmem, by simp⟩
      have h2 := evCount_ge_entry (getDisp w di).events h.event_pattern h.id
      have h3 : countIn (getDisp w di) h.id =
          evCount (getDisp w di).events h.id := rfl
      omega
    have hocc1 : occCountW w h.id = 1 := by
      have hIi := hinv h.id
      cases hwi : worldDispOf w h.id with
      | none =>
        rw [hwi] at hIi
        have hle := countIn_le_occ w di h.id hlt
        omega
      | some dj =>
        rw [hwi] at hIi
        exact hIi.2.1
    unfold WInv
    intro i
    have hsum := occCountW_set w di d' (refSet w.hdisp h.id Option.none) i hlt
    by_cases hi : h.id = i
    · subst hi
      have hw : worldDispOf
          { disps := w.disps.set di d',
            hdisp := refSet w.hdisp h.id Option.none } h.id =
          Option.none := by
        unfold worldDispOf
        rw [refGet_refSet_self]
        rfl
      simp only [hw]
      have hci : countIn d' h.id + 1 = countIn (getDisp w di) h.id := by
        have hx := hcnt h.id
        rw [if_pos rfl] at hx
        exact hx
      omega
    · have hw : worldDispOf
          { disps := w.disps.set di d',
            hdisp := refSet w.hdisp h.id Option.none } i =
          worldDispOf w i := by
        unfold worldDispOf
        rw [refGet_refSet_ne _ _ hi]
      simp only [hw]
      have hIi := hinv i
      have hci : countIn d' i = countIn (getDisp w di) i := by
        have hx := hcnt i
        rw [if_neg hi] at hx
        simpa using hx
      cases hwi : worldDispOf w i with
      | none =>
        rw [hwi] at hIi
        simp only [hwi]
        omega
      | some dj =>
        rw [hwi] at hIi
        simp only [hwi]
        obtain ⟨hdj, ho, hc⟩ := hIi
        refine ⟨by simpa using hdj, ?_, ?_⟩
        · omega
        · by_cases hdij : dj = di
          · subst hdij
            have hgd : getDisp
                { disps := w.disps.set dj d',
                  hdisp := refSet w.hdisp h.id Option.none } dj = d' := by
              unfold getDisp
              exact getD_set_self _ _ _ _ hlt
            rw [hgd]
            omega
          · have hgd : getDisp
                { disps := w.disps.set di d',
                  hdisp := refSet w.hdisp h.id Option.none } dj =
                getDisp w dj := by
              unfold getDisp
              exact getD_set_ne _ _ _ (fun hh => hdij hh.symm)
            rw [hgd]
            exact hc

theorem winv_handlerUnsub {w : World} {h : EvHandler} {w' : World}
    (hinv : WInv w) (hok : wHandlerUnsubscribe w h = Except.ok w') :
    WInv w' := by
  cases hwd : worldDispOf w h.id with
  | none =>
    have hstep : wHandlerUnsubscribe w h =
        Except.ok { w with hdisp := refSet w.hdisp h.id Option.none } := by
      unfold wHandlerUnsubscribe
      rw [hwd]
    rw [hstep] at hok
    simp only [Except.ok.injEq] at hok
    subst hok
    unfold WInv
    intro i
    by_cases hi : h.id = i
    · subst hi
      have hw : worldDispOf
          { w with hdisp := refSet w.hdisp h.id Option.none } h.id =
          Option.none := by
        unfold worldDispOf
        rw [refGet_refSet_self]
        rfl
      simp only [hw]
      have hIi := hinv h.id
      rw [hwd] at hIi
      exact hIi
    · have hw : worldDispOf
          { w with hdisp := refSet w.hdisp h.id Option.none } i =
          worldDispOf w i := by
        unfold worldDispOf
        rw [refGet_refSet_ne _ _ hi]
      simp only [hw]
      have hIi := hinv i
      cases hwi : worldDispOf w i with
      | none =>
        rw [hwi] at hIi
        simp only [hwi]
        exact hIi
      | some dj =>
        rw [hwi] at hIi
        simp only [hwi]
        exact hIi
  | some di =>
    have hstep : wHandlerUnsubscribe w h =
        (match wUnsubscribeD w di h with
         | Except.ok w2 =>
           Except.ok { w2 with hdisp := refSet w2.hdisp h.id Option.none }
         | Except.error er => Except.error er) := by
      unfold wHandlerUnsubscribe
      rw [hwd]
    rw [hstep] at hok
    cases hu : wUnsubscribeD w di h with
    | error er => rw [hu] at hok; exact absurd hok (by simp)
    | ok w'' =>
      rw [hu] at hok
      simp only [Except.ok.injEq] at hok
      subst hok
      have hinv2 := winv_unsubD hinv hu
      have hw2 : w''.hdisp = refSet w.hdisp h.id Option.none := by
        unfold wUnsubscribeD at hu
        cases hu2 : unsubscribe (getDisp w di) h with
        | ok d' =>
          rw [hu2] at hu
          simp only [Except.ok.injEq] at hu
          rw [← hu]
        | error er => rw [hu2] at hu; exact absurd hu (by simp)
      have heq : { w'' with hdisp := refSet w''.hdisp h.id Option.none } =
          w'' := by
        rw [hw2, refSet_refSet_same, ← hw2]
      rw [heq]
      exact hinv2

/-! ## Guarded operation sequences and reachable worlds -/

/-- The public world-level operations. A `sub` is applied only when the
handler is currently detached (the precondition of the amended single-owner
claim) and the target dispatcher exists; `unsubD`/`unsubH` that raise leave
the world unchanged, exactly as the exception leaves the Python state
unmodified. -/
inductive WOp where
  | sub (di : Nat) (h : EvHandler)
  | unsubD (di : Nat) (h : EvHandler)
  | unsubH (h : EvHandler)

def wRunOp (w : World) : WOp → World
  | WOp.sub di h =>
    if worldDispOf w h.id = Option.none ∧ di < w.disps.length
    then wSubscribe w di h else w
  | WOp.unsubD di h =>
    match wUnsubscribeD w di h with
    | Except.ok w' => w'
    | Except.error _ => w
  | WOp.unsubH h =>
    match wHandlerUnsubscribe w h with
    | Except.ok w' => w'
    | Except.error _ => w

def initWorld (n : Nat) : World :=
  { disps := List.replicate n emptyDispatcher, hdisp := [] }

def wRunOps (n : Nat) (ops : List WOp) : World :=
  ops.foldl wRunOp (initWorld n)

theorem winv_runOp {w : World} (hinv : WInv w) (op : WOp) :
    WInv (wRunOp w op) := by
  cases op with
  | sub di h =>
    simp only [wRunOp]
    split
    · rename_i hcond
      exact winv_subscribe hinv hcond.1 hcond.2
    · exact hinv
  | unsubD di h =>
    simp only [wRunOp]
    cases hu : wUnsubscribeD w di h with
    | ok w' => exact winv_unsubD hinv hu
    | error er => exact hinv
  | unsubH h =>
    simp only [wRunOp]
    cases hu : wHandlerUnsubscribe w h with
    | ok w' => exact winv_handlerUnsub hinv hu
    | error er => exact hinv

theorem sum_replicate_zero (m i : Nat) :
    (List.map (fun d => countIn d i) (List.replicate m emptyDispatcher)).sum =
      0 := by
  induction m with
  | zero => simp
  | succ k ih =>
    rw [List.replicate_succ]
    simp only [List.map_cons, List.sum_cons, ih]
    simp [countIn, evCount, emptyDispatcher]

theorem winv_init (n : Nat) : WInv (initWorld n) := by
  unfold WInv
  intro i
  have hw : worldDispOf (initWorld n) i = Option.none := by
    unfold worldDispOf initWorld refGet
    rfl
  simp only [hw]
  show occCountW (initWorld n) i = 0
  unfold occCountW initWorld
  exact sum_replicate_zero n i

theorem winv_runOps (n : Nat) (ops : List WOp) : WInv (wRunOps n ops) := by
  unfold wRunOps
  suffices hgen : ∀ w, WInv w → WInv (ops.foldl wRunOp w) from
    hgen (initWorld n) (winv_init n)
  induction ops with
  | nil => intro w hw; exact hw
  | cons op t ih =>
    intro w hw
    exact ih (wRunOp w op) (winv_runOp hw op)

/-! ## Remaining helper lemmas for the claims -/

instance exceptDecEq {ε α : Type} [DecidableEq ε] [DecidableEq α] :
    DecidableEq (Except ε α) := fun x y =>
  match x, y with
  | Except.ok a, Except.ok b =>
    if h : a = b then isTrue (by rw [h])
    else isFalse (fun hh => h (by injection hh))
  | Except.ok _, Except.error _ => isFalse (fun hh => Except.noConfusion hh)
  | Except.error _, Except.ok _ => isFalse (fun hh => Except.noConfusion hh)
  | Except.error a, Except.error b =>
    if h : a = b then isTrue (by rw [h])
    else isFalse (fun hh => h (by injection hh))

theorem dictGet_dictPop_self {β : Type} (l : List (String × β)) (k : String) :
    dictGet (dictPop l k) k = Option.none := by
  induction l with
  | nil => simp [dictGet, dictPop_nil]
  | cons kv t ih =>
    obtain ⟨k0, v0⟩ := kv
    by_cases hk : k0 = k
    · subst hk
      simpa [dictPop_cons] using ih
    · simpa [dictPop_cons, hk, dictGet] using ih

/-- Matching every pattern against the entire name is a special case of the
code's end-anchored search (the whole string is its own first suffix). -/
theorem re_search_of_fullmatch (p e : String)
    (h : translate_fullmatch p e = true) : re_search_translate p e = true := by
  unfold re_search_translate
  unfold translate_fullmatch at h
  rw [List.any_eq_true]
  exact ⟨e.data, by cases e.data <;> simp [List.tails], h⟩

theorem gmatchF_star : ∀ (fuel : Nat) (s : List Char), s.length + 1 < fuel →
    gmatchF fuel [GTok.star] s = true := by
  intro fuel
  induction fuel with
  | zero => intro s h; omega
  | succ n ih =>
    intro s h
    cases s with
    | nil =>
      have h1 : n ≠ 0 := by simp at h; omega
      obtain ⟨m, rfl⟩ := Nat.exists_eq_succ_of_ne_zero h1
      simp [gmatchF]
    | cons c s' =>
      have := ih s' (by simp at h ⊢; omega)
      simp only [gmatchF, this, Bool.or_true]

/-- The pattern `*` matches every event name under the code's matcher. -/
theorem re_search_star (e : String) : re_search_translate "*" e = true := by
  unfold re_search_translate
  rw [List.any_eq_true]
  refine ⟨e.data, by cases e.data <;> simp [List.tails], ?_⟩
  show gmatch (parseGlob "*".data) e.data = true
  have hp : parseGlob "*".data = [GTok.star] := by decide
  rw [hp]
  unfold gmatch
  exact gmatchF_star _ _ (by simp)

theorem mem_matchingUnion {evs : List (String × List EvHandler)}
    {e : String} {h : EvHandler} :
    h ∈ matchingUnion evs e ↔
      ∃ p hs, (p, hs) ∈ evs ∧ h ∈ hs ∧ re_search_translate p e = true := by
  unfold matchingUnion
  rw [List.mem_flatMap]
  constructor
  · rintro ⟨kv, hkv, hmem⟩
    obtain ⟨p, hs⟩ := kv
    obtain ⟨h1, h2⟩ := List.mem_filter.mp hkv
    exact ⟨p, hs, h1, hmem, by simpa using h2⟩
  · rintro ⟨p, hs, h1, h2, h3⟩
    exact ⟨(p, hs), List.mem_filter.mpr ⟨h1, by simpa using h3⟩, h2⟩

/-! ## Claims -/

/-- C1 (amended): a handler subscribed under pattern `p` is in the resolved
chain for event name `e` iff the code's matcher
`re.search(fnmatch.translate(p), e)` accepts — which is glob matching
anchored to the end of the name only (some suffix of `e` matches the whole
glob), not to the whole name. The concrete examples still hold: `a.b.*`
matches `a.b.c` and `a.b.c.d` but not `a.c`; a pattern matching the entire
name is always accepted; and `*` matches every event name. -/
theorem claim_C1 (evs : List (String × List EvHandler)) (e : String)
    (l : List EvHandler) (h : EvHandler)
    (hok : _create_handler_cache evs e = Except.ok l) :
    (h ∈ l ↔
      ∃ p hs, (p, hs) ∈ evs ∧ h ∈ hs ∧ re_search_translate p e = true) ∧
    re_search_translate "a.b.*" "a.b.c" = true ∧
    re_search_translate "a.b.*" "a.b.c.d" = true ∧
    re_search_translate "a.b.*" "a.c" = false ∧
    (∀ p e', translate_fullmatch p e' = true →
      re_search_translate p e' = true) ∧
    (∀ e', re_search_translate "*" e' = true) := by
  refine ⟨?_, by decide, by decide, by decide,
    fun p e' => re_search_of_fullmatch p e', fun e' => re_search_star e'⟩
  obtain ⟨_, _, hperm⟩ := create_cache_ok_parts hok
  rw [hperm.mem_iff]
  exact mem_matchingUnion

/-- Handler under pattern `b.c`, which does not match the entire name
`a.b.c`, used to refute the full-anchoring part of the claim. -/
def cexB : EvHandler :=
  { id := 10, event_pattern := "b.c", priority := 1,
    kind := HandlerKind.observing,
    callback := { name := "cb", beh := Cb.obsPure } }

/-- C1 counterexample: the handler registered under `b.c` IS in the
resolved chain for `a.b.c` (because `re.search` plus the `\Z`-anchored
regex of `fnmatch.translate` matches any suffix), even though the entire
name `a.b.c` does not match the glob `b.c` — so matching is not anchored
to the full event name as claimed. -/
theorem claim_C1_counterexample :
    _create_handler_cache [("b.c", [cexB])] "a.b.c" = Except.ok [cexB] ∧
    translate_fullmatch "b.c" "a.b.c" = false := by decide

theorem claim_C1_witness :
    _create_handler_cache [("b.c", [cexB])] "b.c" = Except.ok [cexB] ∧
    (cexB ∈ [cexB] ↔ ∃ p hs, (p, hs) ∈ [("b.c", [cexB])] ∧ cexB ∈ hs ∧
      re_search_translate p "b.c" = true) := by
  have h := claim_C1 [("b.c", [cexB])] "b.c" [cexB] cexB (by decide)
  exact ⟨by decide, h.1⟩

/-- C10: on a resolved chain (cached, pairwise-distinct priorities sorted
ascending), `_get_next_handler` locates a member handler by priority
bisection — the internal `assert handler_list[pos] == self` holds — and
returns the element immediately after it, or `None` when it is last; for
a handler that is not in the chain, the lookup raises `AssertionError` or
`IndexError` instead of returning `None`. -/
theorem claim_C10 (d : SimpleEventDispatcher) (e : String)
    (C l1 l2 : List EvHandler) (h : EvHandler)
    (hc : dictGet d.handler_cache e = some C)
    (hs : C.Pairwise prioLt) :
    (C = l1 ++ h :: l2 → _get_next_handler d h e = Except.ok (l2.head?, d)) ∧
    (h ∉ C →
      _get_next_handler d h e = Except.error DispatchErr.assertionError ∨
        _get_next_handler d h e = Except.error DispatchErr.indexError) := by
  constructor
  · intro hsplit
    subst hsplit
    exact get_next_of_cached hc hs
  · intro hnot
    unfold _get_next_handler
    rw [get_handlers_cached hc]
    dsimp only
    cases hget : C.get? (bisect_left C h.priority) with
    | none =>
      right
      simp [hget]
    | some x =>
      have hx : x ∈ C := List.get?_mem hget
      have hxh : ¬x = h := fun hh => hnot (hh ▸ hx)
      left
      simp [hget, hxh]

theorem claim_C10_witness :
    _get_next_handler
        { events := [], handler_cache := [("x.y", [exI, exM, exO])] }
        exM "x.y" =
      Except.ok (some exO,
        { events := [], handler_cache := [("x.y", [exI, exM, exO])] }) ∧
    (_get_next_handler
        { events := [], handler_cache := [("x.y", [exI, exM, exO])] }
        cexB "x.y" = Except.error DispatchErr.assertionError ∨
      _get_next_handler
        { events := [], handler_cache := [("x.y", [exI, exM, exO])] }
        cexB "x.y" = Except.error DispatchErr.indexError) := by
  constructor
  · exact (claim_C10
      { events := [], handler_cache := [("x.y", [exI, exM, exO])] }
      "x.y" [exI, exM, exO] [exI] [exO] exM (by decide) (by decide)).1 rfl
  · exact (claim_C10
      { events := [], handler_cache := [("x.y", [exI, exM, exO])] }
      "x.y" [exI, exM, exO] [] [] cexB (by decide) (by decide)).2 (by decide)

/-- C8 (amended): `ImplementingEventHandler.invoke` runs its callback on
the positional/keyword arguments only and always returns that callback's
own result, whatever the downstream chain does; when a successor exists it
stores `next_handler`/`result` into `event_args`, invokes the successor
discarding its return value, and then pops both keys from `event_args` —
which restores the prior shape only when those keys were absent on entry
(as they are for the handler `dispatch` invokes first). -/
theorem claim_C8 (fuel : Nat) (d : SimpleEventDispatcher) (h : EvHandler)
    (ea : EventArgs) (args : List Val) (v : Val) (ea2 : EventArgs)
    (d2 : SimpleEventDispatcher)
    (hk : h.kind = HandlerKind.implementing)
    (hok : invokeH fuel d h ea args = Except.ok (v, ea2, d2)) :
    v = runImplCb h.callback.beh args ∧
    (dictGet ea2 "result" = Option.none ∧
        dictGet ea2 "next_handler" = Option.none ∨
      ea2 = ea) := by
  cases fuel with
  | zero => exact absurd hok (by simp [invokeH])
  | succ n =>
    simp only [invokeH, hk] at hok
    cases hev : eaEvent ea with
    | none => simp only [hev] at hok; exact absurd hok (by simp)
    | some ev =>
      simp only [hev] at hok
      cases hnx : _get_next_handler d h ev with
      | error er => simp only [hnx] at hok; exact absurd hok (by simp)
      | ok p =>
        obtain ⟨next?, d1⟩ := p
        simp only [hnx] at hok
        cases next? with
        | none =>
          simp only [Except.ok.injEq, Prod.mk.injEq] at hok
          exact ⟨hok.1.symm, Or.inr hok.2.1.symm⟩
        | some nh =>
          cases hin : invokeH n d1 nh
              (dictSet (dictSet ea "next_handler" (EVal.handler nh))
                "result" (EVal.v (runImplCb h.callback.beh args))) args with
          | error er => simp only [hin] at hok; exact absurd hok (by simp)
          | ok q =>
            obtain ⟨r, eaX, dX⟩ := q
            simp only [hin] at hok
            simp only [Except.ok.injEq, Prod.mk.injEq] at hok
            refine ⟨hok.1.symm, Or.inl ⟨?_, ?_⟩⟩
            · rw [← hok.2.1]
              rw [dictGet_dictPop_ne _ (by decide)]
              exact dictGet_dictPop_self _ _
            · rw [← hok.2.1]
              exact dictGet_dictPop_self _ _

def cex8M1 : EvHandler :=
  { id := 21, event_pattern := "e", priority := 1,
    kind := HandlerKind.implementing,
    callback := { name := "m1", beh := Cb.implConst (Val.int 1) } }

def cex8M2 : EvHandler :=
  { id := 22, event_pattern := "e", priority := 2,
    kind := HandlerKind.implementing,
    callback := { name := "m2", beh := Cb.implConst (Val.int 2) } }

def cex8M3 : EvHandler :=
  { id := 23, event_pattern := "e", priority := 3,
    kind := HandlerKind.implementing,
    callback := { name := "m3", beh := Cb.implConst (Val.int 3) } }

def cex8D : SimpleEventDispatcher :=
  { events := [("e", [cex8M1, cex8M2, cex8M3])],
    handler_cache := [("e", [cex8M1, cex8M2, cex8M3])] }

/-- The `event_args` dict as the middle implementer of the chain receives
it from the first one: `result` is present (set by its predecessor). -/
def cex8ea : EventArgs :=
  [("event", EVal.v (Val.str "e")), ("sender", EVal.v (Val.str "s")),
   ("next_handler", EVal.handler cex8M2), ("result", EVal.v (Val.int 1))]

/-- C8 counterexample: invoked mid-chain with `result` already present in
`event_args` (exactly what `ImplementingEventHandler.invoke` of the
predecessor produces), the implementer's trailing
`event_args.pop('result', None)` deletes the key outright, so `event_args`
is NOT restored to its prior shape — the claim's restoration statement
fails. -/
theorem claim_C8_counterexample :
    dictGet cex8ea "result" = some (EVal.v (Val.int 1)) ∧
    (match invokeH 3 cex8D cex8M2 cex8ea [] with
     | Except.ok (_, ea2, _) => dictGet ea2 "result"
     | Except.error _ => some (EVal.v (Val.int 0))) = Option.none := by
  decide

theorem claim_C8_witness :
    (match invokeH 3 cex8D cex8M2 cex8ea [] with
     | Except.ok (v, _, _) => some v
     | Except.error _ => Option.none) = some (Val.int 2) := by
  cases hin : invokeH 3 cex8D cex8M2 cex8ea [] with
  | error er =>
    have hok2 : (match invokeH 3 cex8D cex8M2 cex8ea [] with
        | Except.ok _ => true
        | Except.error _ => false) = true := by decide
    simp only [hin] at hok2
    exact absurd hok2 (by decide)
  | ok q =>
    obtain ⟨v, ea2, d2⟩ := q
    have h := claim_C8 3 cex8D cex8M2 cex8ea [] v ea2 d2 (by decide) hin
    rw [h.1]
    show some (runImplCb cex8M2.callback.beh []) = some (Val.int 2)
    decide

/-- C2: on any reachable dispatcher state, a successful
`get_handlers_for_event(E)` returns the union of all matching patterns'
handlers sorted ascending by priority (a sorted permutation of the
matching union); consequently, whenever `l[i].priority < l[j].priority`
the position `i` comes before `j`, i.e. any strictly-lower-priority
handler appears before any higher-priority one. -/
theorem claim_C2 (ops : List DOp) (e : String) (l : List EvHandler)
    (d' : SimpleEventDispatcher)
    (hq : get_handlers_for_event (runOps ops) e = Except.ok (l, d')) :
    l.Pairwise prioLe ∧ l.Perm (matchingUnion (runOps ops).events e) ∧
    ∀ i j : Fin l.length,
      (l.get i).priority < (l.get j).priority → (i : Nat) < (j : Nat) := by
  have hv := valid_runOps ops
  obtain ⟨hcc, _, _, _⟩ := get_handlers_valid hv hq
  obtain ⟨hs, hn, hperm⟩ := create_cache_ok_parts hcc
  refine ⟨hs, hperm, ?_⟩
  intro i j hlt
  rcases lt_trichotomy (i : Nat) (j : Nat) with h1 | h1 | h1
  · exact h1
  · exfalso
    have hij : i = j := Fin.ext h1
    rw [hij] at hlt
    exact lt_irrefl _ hlt
  · exfalso
    have hle : prioLe (l.get j) (l.get i) :=
      List.pairwise_iff_get.mp hs j i h1
    exact absurd (lt_of_lt_of_le hlt hle) (lt_irrefl _)

theorem claim_C2_witness :
    ([exI, exM, exO] : List EvHandler).Pairwise prioLe ∧
    ([exI, exM, exO] : List EvHandler).Perm
      (matchingUnion
        (runOps [DOp.sub exO, DOp.sub exI, DOp.sub exM]).events "x.y") ∧
    ∀ i j : Fin ([exI, exM, exO] : List EvHandler).length,
      (([exI, exM, exO] : List EvHandler).get i).priority <
          (([exI, exM, exO] : List EvHandler).get j).priority →
        (i : Nat) < (j : Nat) :=
  claim_C2 [DOp.sub exO, DOp.sub exI, DOp.sub exM] "x.y" [exI, exM, exO]
    { events := [("x.y", [exO, exI, exM])],
      handler_cache := [("x.y", [exI, exM, exO])] } (by decide)

/-- C3: whenever the handlers matching an event name do not have pairwise
distinct priorities, chain resolution — and hence `dispatch` — raises the
conflict error synchronously; the error carries the event name, the
colliding priority and the callback names of the handlers at that
priority, of which there are at least two. -/
theorem claim_C3 (d : SimpleEventDispatcher) (e : String)
    (hv : validCache d)
    (hdup : ¬((matchingUnion d.events e).map (fun h => h.priority)).Nodup) :
    ∃ g names,
      get_handlers_for_event d e =
        Except.error (DispatchErr.handlerConflict e g names) ∧
      (∀ sender args, dispatch d sender e args =
        Except.error (DispatchErr.handlerConflict e g names)) ∧
      names = (((matchingUnion d.events e).insertionSort prioLe).filter
        (fun h => h.priority = g)).map (fun h => h.callback.name) ∧
      2 ≤ names.length := by
  have hperm : (((matchingUnion d.events e).insertionSort prioLe).map
      (fun h => h.priority)).Perm
      ((matchingUnion d.events e).map (fun h => h.priority)) :=
    (List.perm_insertionSort prioLe (matchingUnion d.events e)).map _
  have hdup' : ¬(((matchingUnion d.events e).insertionSort prioLe).map
      (fun h => h.priority)).Nodup := fun hnd => hdup (hperm.nodup_iff.mp hnd)
  have hsorted : (((matchingUnion d.events e).insertionSort prioLe).map
      (fun h => h.priority)).Pairwise (fun a b => a ≤ b) :=
    List.pairwise_map.mpr (List.sorted_insertionSort prioLe _)
  obtain ⟨g, l1, l2, hfad, hshape⟩ := firstAdjacentDup_of_sorted hsorted hdup'
  have hcc := create_cache_error_of_dup hdup'
  rw [hfad] at hcc
  simp only [Option.getD_some] at hcc
  have hget := get_handlers_of_error hv hcc
  refine ⟨g, _, hget, ?_, rfl, ?_⟩
  · intro sender args
    unfold dispatch
    rw [hget]
  · have h2 := count_ge_two_of_shape hshape
    rw [List.length_map, ← List.countP_eq_length_filter]
    rw [List.countP_map] at h2
    exact h2

def cex3A : EvHandler :=
  { id := 31, event_pattern := "e", priority := 5,
    kind := HandlerKind.observing,
    callback := { name := "f", beh := Cb.obsPure } }

def cex3B : EvHandler :=
  { id := 32, event_pattern := "e", priority := 5,
    kind := HandlerKind.observing,
    callback := { name := "g", beh := Cb.obsPure } }

def cex3D : SimpleEventDispatcher :=
  { events := [("e", [cex3A, cex3B])], handler_cache := [] }

theorem claim_C3_witness :
    ∃ g names,
      get_handlers_for_event cex3D "e" =
        Except.error (DispatchErr.handlerConflict "e" g names) ∧
      (∀ sender args, dispatch cex3D sender "e" args =
        Except.error (DispatchErr.handlerConflict "e" g names)) ∧
      names = (((matchingUnion cex3D.events "e").insertionSort prioLe).filter
        (fun h => h.priority = g)).map (fun h => h.callback.name) ∧
      2 ≤ names.length :=
  claim_C3 cex3D "e" (by intro e l hg; simp [cex3D, dictGet] at hg)
    (by decide)

/-- C4: on every reachable dispatcher state — in particular right after
any `subscribe` or successful `unsubscribe` — `get_handlers_for_event(E)`
returns for every event name `E` exactly what a from-scratch recomputation
over the current registry produces: the cache never serves a stale
chain. -/
theorem claim_C4 (ops : List DOp) (h : EvHandler) (e : String) :
    resolvedChain (subscribe (runOps ops) h) e =
      _create_handler_cache (subscribe (runOps ops) h).events e ∧
    (∀ d', unsubscribe (runOps ops) h = Except.ok d' →
      resolvedChain d' e = _create_handler_cache d'.events e) ∧
    resolvedChain (runOps ops) e =
      _create_handler_cache (runOps ops).events e := by
  have hv := valid_runOps ops
  exact ⟨resolvedChain_fresh (valid_subscribe hv h),
    fun d' hu => resolvedChain_fresh (valid_unsubscribe hv hu),
    resolvedChain_fresh hv⟩

theorem claim_C4_witness :
    resolvedChain (subscribe (runOps []) exO) "x.y" =
      _create_handler_cache (subscribe (runOps []) exO).events "x.y" :=
  (claim_C4 [] exO "x.y").1

/-- C5: `handler.unsubscribe()` is idempotent — after a successful call
the handler is detached and a repeated call is a no-op that cannot raise
(on a detached handler it only re-clears the reference) — whereas calling
`dispatcher.unsubscribe(h)` a second time, once `h` is no longer present
in the registry, raises the `list.remove` `ValueError` instead of
silently succeeding. -/
theorem claim_C5 (w : World) (h : EvHandler) (d : SimpleEventDispatcher)
    (hcnt : ((dictGet d.events h.event_pattern).getD []).count h = 1) :
    (∀ w', wHandlerUnsubscribe w h = Except.ok w' →
      wHandlerUnsubscribe w' h = Except.ok w') ∧
    (worldDispOf w h.id = Option.none →
      wHandlerUnsubscribe w h =
        Except.ok { disps := w.disps,
                    hdisp := refSet w.hdisp h.id Option.none }) ∧
    (∃ d', unsubscribe d h = Except.ok d' ∧
      unsubscribe d' h = Except.error DispatchErr.valueError) := by
  refine ⟨?_, ?_, ?_⟩
  · intro w' hw'
    have hform : ∃ m, w'.hdisp = refSet m h.id Option.none := by
      simp only [wHandlerUnsubscribe] at hw'
      cases hwd : worldDispOf w h.id with
      | some di =>
        simp only [hwd] at hw'
        cases hu : wUnsubscribeD w di h with
        | ok w2 =>
          simp only [hu] at hw'
          simp only [Except.ok.injEq] at hw'
          exact ⟨w2.hdisp, by rw [← hw']⟩
        | error er =>
          simp only [hu] at hw'
          exact absurd hw' (by simp)
      | none =>
        simp only [hwd] at hw'
        simp only [Except.ok.injEq] at hw'
        exact ⟨w.hdisp, by rw [← hw']⟩
    obtain ⟨m, hm⟩ := hform
    have hnone : worldDispOf w' h.id = Option.none := by
      unfold worldDispOf
      rw [hm, refGet_refSet_self]
      rfl
    simp only [wHandlerUnsubscribe, hnone]
    have hre : refSet w'.hdisp h.id Option.none = w'.hdisp := by
      rw [hm, refSet_refSet_same]
    rw [hre]
  · intro hnone
    simp only [wHandlerUnsubscribe, hnone]
  · have hmem : h ∈ (dictGet d.events h.event_pattern).getD [] := by
      by_contra hnm
      rw [List.count_eq_zero_of_not_mem hnm] at hcnt
      exact absurd hcnt (by decide)
    refine ⟨_, unsubscribe_mem_ok hmem, ?_⟩
    apply unsubscribe_not_mem
    show h ∉ (dictGet (dictSet d.events h.event_pattern
      (((dictGet d.events h.event_pattern).getD []).erase h))
        h.event_pattern).getD []
    rw [dictGet_dictSet_self]
    simp only [Option.getD_some]
    intro hmem2
    have hc0 : (((dictGet d.events h.event_pattern).getD []).erase h).count h
        = 0 := by
      rw [List.count_erase_self, hcnt]
    rw [List.count_eq_zero] at hc0
    exact hc0 hmem2

theorem claim_C5_witness :
    wHandlerUnsubscribe { disps := [], hdisp := [] } exO =
      Except.ok { disps := [], hdisp := [(3, Option.none)] } ∧
    wHandlerUnsubscribe { disps := [], hdisp := [(3, Option.none)] } exO =
      Except.ok { disps := [], hdisp := [(3, Option.none)] } ∧
    ∃ d', unsubscribe { events := [("x.y", [exO])], handler_cache := [] }
        exO = Except.ok d' ∧
      unsubscribe d' exO = Except.error DispatchErr.valueError := by
  have hc := claim_C5 { disps := [], hdisp := [] } exO
    { events := [("x.y", [exO])], handler_cache := [] } (by decide)
  exact ⟨by decide, hc.1 { disps := [], hdisp := [(3, Option.none)] }
    (by decide), hc.2.2⟩

/-- C6: when the resolved chain for an event is empty, `dispatch` does not
raise: it returns `None` together with the non-fatal warning flag; when
the chain is nonempty, `dispatch` invokes only its first handler, with
`event_args = {'event': event, 'sender': sender}` and the passthrough
arguments, and returns whatever that invocation returns. -/
theorem claim_C6 (ops : List DOp) (sender : Val) (e : String)
    (args : List Val) (l : List EvHandler) (d' : SimpleEventDispatcher)
    (hq : get_handlers_for_event (runOps ops) e = Except.ok (l, d')) :
    (l = [] → dispatch (runOps ops) sender e args =
      Except.ok (Val.none, true, d')) ∧
    ∀ h t, l = h :: t →
      dispatch (runOps ops) sender e args =
        (match invokeH (l.length + 1) d' h
            [("event", EVal.v (Val.str e)), ("sender", EVal.v sender)]
            args with
         | Except.ok (r, _, d2) => Except.ok (r, false, d2)
         | Except.error er => Except.error er) := by
  constructor
  · intro hl
    subst hl
    unfold dispatch
    rw [hq]
  · intro h t hl
    subst hl
    unfold dispatch
    rw [hq]

theorem claim_C6_witness :
    dispatch (runOps [DOp.sub exI, DOp.sub exM, DOp.sub exO]) (Val.str "s")
        "zzz" [] =
      Except.ok (Val.none, true,
        { events := [("x.y", [exI, exM, exO])],
          handler_cache := [("zzz", [])] }) ∧
    dispatch (runOps [DOp.sub exI, DOp.sub exM, DOp.sub exO]) (Val.str "s")
        "x.y" [] =
      (match invokeH 4
          { events := [("x.y", [exI, exM, exO])],
            handler_cache := [("x.y", [exI, exM, exO])] } exI
          [("event", EVal.v (Val.str "x.y")),
           ("sender", EVal.v (Val.str "s"))] [] with
       | Except.ok (r, _, d2) => Except.ok (r, false, d2)
       | Except.error er => Except.error er) := by
  constructor
  · exact (claim_C6 [DOp.sub exI, DOp.sub exM, DOp.sub exO] (Val.str "s")
      "zzz" [] []
      { events := [("x.y", [exI, exM, exO])],
        handler_cache := [("zzz", [])] } (by decide)).1 rfl
  · exact (claim_C6 [DOp.sub exI, DOp.sub exM, DOp.sub exO] (Val.str "s")
      "x.y" [] [exI, exM, exO]
      { events := [("x.y", [exI, exM, exO])],
        handler_cache := [("x.y", [exI, exM, exO])] } (by decide)).2
      exI [exM, exO] rfl

/-- C9 counterexample: `subscribe` overwrites the handler's dispatcher
reference without unsubscribing it from its previous dispatcher, so
subscribing an already-subscribed handler to another dispatcher leaves it
registered in dispatcher 0's registry while its reference points to
dispatcher 1 — the claimed invariant is violated by a sequence of public
operations. -/
theorem claim_C9_counterexample :
    worldDispOf (wSubscribe (wSubscribe (initWorld 2) 0 exO) 1 exO) exO.id =
      some 1 ∧
    countIn (getDisp (wSubscribe (wSubscribe (initWorld 2) 0 exO) 1 exO) 0)
      exO.id = 1 := by decide

/-- C9 (amended): under the guarded operation set — where `subscribe` is
only applied to a currently detached handler — the single-owner invariant
does hold on every reachable world: a handler whose dispatcher reference
names `di` is registered exactly once, in dispatcher `di`, and nowhere
else; a handler with a cleared reference is registered nowhere. -/
theorem claim_C9 (n : Nat) (ops : List WOp) (i : Nat) :
    match worldDispOf (wRunOps n ops) i with
    | some di =>
        di < (wRunOps n ops).disps.length ∧
        countIn (getDisp (wRunOps n ops) di) i = 1 ∧
        ∀ dj, dj ≠ di → countIn (getDisp (wRunOps n ops) dj) i = 0
    | Option.none => ∀ dj, countIn (getDisp (wRunOps n ops) dj) i = 0 := by
  have hinv := winv_runOps n ops i
  cases hw : worldDispOf (wRunOps n ops) i with
  | some di =>
    simp only [hw] at hinv ⊢
    obtain ⟨hlt, hocc, hcnt⟩ := hinv
    refine ⟨hlt, hcnt, ?_⟩
    intro dj hne
    by_cases hdj : dj < (wRunOps n ops).disps.length
    · have hle : countIn (getDisp (wRunOps n ops) di) i +
          countIn (getDisp (wRunOps n ops) dj) i ≤
            occCountW (wRunOps n ops) i :=
        sum_two_indices (fun d => countIn d i) (wRunOps n ops).disps
          emptyDispatcher hlt hdj (fun hh => hne hh.symm)
      rw [hocc] at hle
      omega
    · show countIn (getDisp (wRunOps n ops) dj) i = 0
      unfold getDisp
      rw [getD_out_of_range _ _ hdj]
      rfl
  | none =>
    simp only [hw] at hinv ⊢
    intro dj
    by_cases hdj : dj < (wRunOps n ops).disps.length
    · have hle : countIn (getDisp (wRunOps n ops) dj) i ≤
          occCountW (wRunOps n ops) i := countIn_le_occ _ dj i hdj
      rw [hinv] at hle
      omega
    · show countIn (getDisp (wRunOps n ops) dj) i = 0
      unfold getDisp
      rw [getD_out_of_range _ _ hdj]
      rfl


/-! ## C7 assembly: observer insertion at the `dispatch` level -/

/-- The observable outcome of `dispatch`: its return value (or the raised
error), forgetting the warning flag and the cache-warming of the
dispatcher state. -/
def dispatchVal (d : SimpleEventDispatcher) (sender : Val) (e : String)
    (args : List Val) : Except DispatchErr Val :=
  match dispatch d sender e args with
  | Except.ok (r, _, _) => Except.ok r
  | Except.error er => Except.error er

theorem dispatch_val_eq_chainEval {d : SimpleEventDispatcher} {e : String}
    {C : List EvHandler} (sender : Val) (args : List Val)
    (hv : validCache d)
    (hcc : _create_handler_cache d.events e = Except.ok C)
    (hsane : ∀ x ∈ C, cbSane x.callback.beh = true) :
    dispatchVal d sender e args =
      Except.ok ((chainEval C
        [("event", EVal.v (Val.str e)), ("sender", EVal.v sender)]
        args).1) := by
  have hrc : resolvedChain d e = _create_handler_cache d.events e :=
    resolvedChain_fresh hv
  unfold dispatchVal dispatch
  cases hq : get_handlers_for_event d e with
  | error er =>
    exfalso
    unfold resolvedChain at hrc
    rw [hq, hcc] at hrc
    exact absurd hrc (by simp)
  | ok p =>
    obtain ⟨C0, d1⟩ := p
    have hC0 : C0 = C := by
      unfold resolvedChain at hrc
      rw [hq, hcc] at hrc
      simpa using hrc
    subst hC0
    obtain ⟨hcc1, hv1, hev1, hcache1⟩ := get_handlers_valid hv hq
    clear hrc hq hv1 hev1
    cases C0 with
    | nil => rfl
    | cons h t =>
      have hsorted := create_cache_ok_strict hcc
      have hbr := invokeH_eq_chainEval (t.length + 1 + 1) [] t h d1
        [("event", EVal.v (Val.str e)), ("sender", EVal.v sender)] args e
        (by simpa using hcache1) (by simpa using hsorted)
        (by unfold eaEvent; rw [dictGet_cons_pos _ _ rfl])
        (by simpa using hsane) (by omega)
      simp only [List.length_cons]
      rw [hbr]

/-- Appending a handler to the list of a pattern that matches `e` (what
`subscribe` does to `__events`) adds exactly that handler to the matching
union, up to permutation. -/
theorem matchingUnion_dictSet_append
    {evs : List (String × List EvHandler)} {p e : String}
    (O : EvHandler) (hm : re_search_translate p e = true) :
    (matchingUnion (dictSet evs p ((dictGet evs p).getD [] ++ [O])) e).Perm
      (O :: matchingUnion evs e) := by
  induction evs with
  | nil =>
    show (matchingUnion [(p, [O])] e).Perm (O :: matchingUnion [] e)
    rw [matchingUnion_cons]
    simp [hm, matchingUnion]
  | cons kv t ih =>
    obtain ⟨k0, l0⟩ := kv
    by_cases hk : k0 = p
    · subst hk
      rw [dictGet_cons_pos l0 t rfl, Option.getD_some,
        dictSet_cons_pos l0 t (l0 ++ [O]) rfl,
        matchingUnion_cons, matchingUnion_cons]
      simp only [if_pos hm]
      have h1 : (l0 ++ [O]) ++ matchingUnion t e =
          l0 ++ (O :: matchingUnion t e) := by simp
      rw [h1]
      exact List.perm_middle
    · rw [dictGet_cons_neg l0 t hk,
        dictSet_cons_neg l0 t ((dictGet t p).getD [] ++ [O]) hk,
        matchingUnion_cons, matchingUnion_cons]
      by_cases hke : re_search_translate k0 e = true
      · simp only [if_pos hke]
        exact (List.Perm.append_left l0 ih).trans List.perm_middle
      · simp only [if_neg hke]
        exact ih

/-- A strictly-sorted list that is a permutation of `O :: C` for a
strictly-sorted `C` is `C` with `O` inserted at one position. -/
theorem sorted_perm_cons_split {C Cp : List EvHandler} {O : EvHandler}
    (hC : C.Pairwise prioLt) (hCp : Cp.Pairwise prioLt)
    (hp : Cp.Perm (O :: C)) :
    ∃ l1 l2, C = l1 ++ l2 ∧ Cp = l1 ++ O :: l2 := by
  have hmem : O ∈ Cp := hp.mem_iff.mpr (by simp)
  obtain ⟨l1, l2, rfl⟩ := List.append_of_mem hmem
  refine ⟨l1, l2, ?_, rfl⟩
  have h1 : (l1 ++ O :: l2).Perm (O :: (l1 ++ l2)) := List.perm_middle
  have h2 : (O :: (l1 ++ l2)).Perm (O :: C) := h1.symm.trans hp
  have h3 : (l1 ++ l2).Perm C := h2.cons_inv
  have hsub : (l1 ++ l2).Sublist (l1 ++ O :: l2) :=
    (List.sublist_cons_self O l2).append_left l1
  have hs1 : (l1 ++ l2).Pairwise prioLt := List.Pairwise.sublist hsub hCp
  exact (List.eq_of_perm_of_sorted h3 hs1 hC).symm

/-- The interceptor reading the auxiliary key `x` from `event_args`: its
result depends on what upstream handlers stored there. -/
def c7I : EvHandler :=
  { id := 72, event_pattern := "e", priority := 2,
    kind := HandlerKind.intercepting,
    callback := { name := "icpt", beh := Cb.interReadKey "x" } }

/-- An observer whose callback mutates `event_args` (stores `"m"` under
`"x"`), used to refute the claim as stated. -/
def c7O : EvHandler :=
  { id := 71, event_pattern := "e", priority := 1,
    kind := HandlerKind.observing,
    callback := { name := "obs", beh := Cb.obsSetKey "x" (Val.str "m") } }

/-- An observer whose callback leaves `event_args` alone. -/
def c7P : EvHandler :=
  { id := 73, event_pattern := "e", priority := 1,
    kind := HandlerKind.observing,
    callback := { name := "pure", beh := Cb.obsPure } }

/-- C7 counterexample: subscribing an Observer CAN change the return value
of `dispatch` on an otherwise unmodified chain: the observer's callback
writes a key into `event_args`, and a downstream interceptor that reads
the key returns a different value — `None` without the observer, `"m"`
with it. -/
theorem claim_C7_counterexample :
    (match dispatch { events := [("e", [c7I])], handler_cache := [] }
        (Val.str "s") "e" [] with
     | Except.ok (r, _, _) => some r
     | Except.error _ => Option.none) = some Val.none ∧
    (match dispatch
        (subscribe { events := [("e", [c7I])], handler_cache := [] } c7O)
        (Val.str "s") "e" [] with
     | Except.ok (r, _, _) => some r
     | Except.error _ => Option.none) = some (Val.str "m") := by decide

/-- C7 (amended): subscribing an Observer whose callback does not mutate
`event_args` never changes the return value of `dispatch`, for any chain
of protocol-respecting callbacks not otherwise modified (both the chain
with and the chain without the observer resolving successfully); the
observer's callback return value is discarded, it strips `next_handler`
before its callback runs, and it unconditionally propagates to its
successor. Without the purity restriction the claim is false
(`claim_C7_counterexample`): an observer may mutate `event_args`, which
downstream handlers can read. -/
theorem claim_C7 (d : SimpleEventDispatcher) (O : EvHandler) (sender : Val)
    (e : String) (args : List Val) (C Cp : List EvHandler)
    (hv : validCache d)
    (hOk : O.kind = HandlerKind.observing)
    (hOcb : O.callback.beh = Cb.obsPure)
    (hcc : _create_handler_cache d.events e = Except.ok C)
    (hcc2 : _create_handler_cache (subscribe d O).events e = Except.ok Cp)
    (hsane : ∀ x ∈ C, cbSane x.callback.beh = true) :
    dispatchVal (subscribe d O) sender e args =
      dispatchVal d sender e args := by
  have hv2 : validCache (subscribe d O) := valid_subscribe hv O
  by_cases hm : re_search_translate O.event_pattern e = true
  · have hpermC : C.Perm (matchingUnion d.events e) :=
      (create_cache_ok_parts hcc).2.2
    have hpermC2 : Cp.Perm (matchingUnion (subscribe d O).events e) :=
      (create_cache_ok_parts hcc2).2.2
    have hun : (matchingUnion (subscribe d O).events e).Perm
        (O :: matchingUnion d.events e) := by
      rw [subscribe_events]
      exact matchingUnion_dictSet_append O hm
    have hp : Cp.Perm (O :: C) :=
      hpermC2.trans (hun.trans (hpermC.symm.cons O))
    obtain ⟨l1, l2, hCeq, hCpeq⟩ := sorted_perm_cons_split
      (create_cache_ok_strict hcc) (create_cache_ok_strict hcc2) hp
    have hsane2 : ∀ x ∈ Cp, cbSane x.callback.beh = true := by
      intro x hx
      rw [hCpeq] at hx
      rcases List.mem_append.mp hx with h1 | h1
      · exact hsane x (by rw [hCeq]; exact List.mem_append.mpr (Or.inl h1))
      · rcases List.mem_cons.mp h1 with h2 | h2
        · rw [h2, hOcb]; rfl
        · exact hsane x (by rw [hCeq]; exact List.mem_append.mpr (Or.inr h2))
    rw [dispatch_val_eq_chainEval sender args hv hcc hsane,
      dispatch_val_eq_chainEval sender args hv2 hcc2 hsane2]
    have hins := chainEval_insert_observer l1 l2 O args hOk hOcb
      (by rw [← hCeq]; exact hsane)
      [("event", EVal.v (Val.str e)), ("sender", EVal.v sender)]
      [("event", EVal.v (Val.str e)), ("sender", EVal.v sender)] rfl
    rw [hCeq, hCpeq]
    exact congrArg Except.ok hins.1.symm
  · have hmf : re_search_translate O.event_pattern e = false := by
      simpa using hm
    have heq : _create_handler_cache (subscribe d O).events e =
        _create_handler_cache d.events e := by
      rw [subscribe_events]
      exact create_cache_congr (matchingUnion_dictSet_unmatched _ hmf)
    have hCC : Cp = C := by
      rw [heq, hcc] at hcc2
      exact (by simpa using hcc2 : C = Cp).symm
    rw [dispatch_val_eq_chainEval sender args hv hcc hsane,
      dispatch_val_eq_chainEval sender args hv2 hcc2
        (by rw [hCC]; exact hsane), hCC]

theorem claim_C7_witness :
    dispatchVal (subscribe { events := [("e", [c7I])], handler_cache := [] }
        c7P) (Val.str "s") "e" [] =
      dispatchVal { events := [("e", [c7I])], handler_cache := [] }
        (Val.str "s") "e" [] :=
  claim_C7 { events := [("e", [c7I])], handler_cache := [] } c7P
    (Val.str "s") "e" [] [c7I] [c7P, c7I]
    (by intro e l hg; simp [dictGet] at hg) rfl rfl (by decide) (by decide)
    (by decide)


end PyEventSystem
